import Mathlib

/-!
Shallow embedding of `src/hashdist/spec/conda_version_matching.py`.

The Python module implements three layers:
* `_VersionOrder` — parses a version string into `(epoch-prefixed version, local)`
  lists of token lists and defines `__eq__`, `__lt__` and `startswith` on them;
* `_VersionSpec` — compiles a constraint expression into a tagged matcher;
* `_MatchSpec` — compiles `name [version [build]] [(attrs)]` into a candidate matcher.

Strings are modelled as `List Char` (Python strings compare by code points).
Python `int` becomes `ℕ` (version numerals are digit runs, hence non-negative),
`float('inf')` becomes the dedicated token `Tok.inf`, and raised exceptions
become `Except Err` with one constructor per Python exception kind that the
module can raise.  Everything is executable so concrete claims evaluate.
-/

namespace Conda

/-- Error kinds raised by the module.  The source raises `ValueError` both for
malformed versions (inside `_VersionOrder.__new__`) and malformed specs (inside
`_VersionSpec.__new__` / `_MatchSpec.__new__`); we keep the two conceptual kinds
apart, as the spec does.  `assertionError` models the bare `assert` on the
token count in `_MatchSpec.__new__`, `keyError` the `_regex_split_converter[...]`
lookup, `indexError` the `oparts.strip()[-1]` access on an empty string, and
`outOfFuel` is the (never hit with default fuel) recursion bound of the
fuel-based `_VersionSpec` compiler. -/
inductive Err where
  | malformedVersion
  | malformedSpec
  | assertionError
  | keyError
  | indexError
  | outOfFuel
deriving DecidableEq, Repr

instance {ε α : Type} [DecidableEq ε] [DecidableEq α] : DecidableEq (Except ε α) :=
  fun a b =>
    match a, b with
    | .ok x, .ok y =>
      if h : x = y then .isTrue (by rw [h]) else .isFalse (by simp [h])
    | .error e, .error f =>
      if h : e = f then .isTrue (by rw [h]) else .isFalse (by simp [h])
    | .ok _, .error _ => .isFalse (by simp)
    | .error _, .ok _ => .isFalse (by simp)

/-- ASCII whitespace recognised by Python's `str.strip` / `str.split`. -/
def pyIsSpace (c : Char) : Bool :=
  c.toNat = 32 || c.toNat = 9 || c.toNat = 10 || c.toNat = 13 || c.toNat = 11 || c.toNat = 12

/-- Python `str.isdigit` restricted to ASCII. -/
def pyIsDigit (c : Char) : Bool :=
  48 ≤ c.toNat && c.toNat ≤ 57

/-- Python `str.lower` on one ASCII character. -/
def pyLowerChar (c : Char) : Char :=
  if 65 ≤ c.toNat ∧ c.toNat ≤ 90 then Char.ofNat (c.toNat + 32) else c

/-- Python `str.lower`. -/
def pyLower (s : List Char) : List Char := s.map pyLowerChar

/-- Python `str.strip()` (whitespace from both ends). -/
def pyStrip (s : List Char) : List Char :=
  ((s.dropWhile pyIsSpace).reverse.dropWhile pyIsSpace).reverse

/-- Python string `<` (lexicographic on code points). -/
def charsLt : List Char → List Char → Bool
  | [], [] => false
  | [], _ :: _ => true
  | _ :: _, [] => false
  | a :: as, b :: bs => if a = b then charsLt as bs else decide (a.toNat < b.toNat)

/-- Python `s.replace(a, b)` for single characters. -/
def replChar (a b : Char) (s : List Char) : List Char :=
  s.map fun c => if c = a then b else c

/-- Python `str.split(sep)` for a one-character separator (keeps empty pieces). -/
def splitChar (sep : Char) : List Char → List (List Char)
  | [] => [[]]
  | c :: cs =>
    if c = sep then [] :: splitChar sep cs
    else
      match splitChar sep cs with
      | p :: ps => (c :: p) :: ps
      | [] => [[c]]

/-- `str.split(sep)` pieces re-joined with the separator. -/
def joinSep (sep : Char) : List (List Char) → List Char
  | [] => []
  | [p] => p
  | p :: ps => p ++ sep :: joinSep sep ps

/-- Python `str.split()` (no argument): split on whitespace runs, no empties. -/
def splitWs (s : List Char) : List (List Char) :=
  (splitP s).filter (· ≠ []) where
  /-- split at every whitespace character, keeping empty pieces -/
  splitP : List Char → List (List Char)
    | [] => [[]]
    | c :: cs =>
      if pyIsSpace c then [] :: splitP cs
      else
        match splitP cs with
        | p :: ps => (c :: p) :: ps
        | [] => [[c]]

/-- Left-to-right effectful map over `Except` (Python evaluates generator
arguments in order). -/
def listMapM {α β : Type} (f : α → Except Err β) : List α → Except Err (List β)
  | [] => .ok []
  | a :: as => do
    let b ← f a
    let bs ← listMapM f as
    .ok (b :: bs)

/-- A version subcomponent: an integer run, the `'post'` sentinel
(`float('inf')` in the source), or a (lower-case) string run.  The `'dev'`
sentinel is stored as the upper-case string `"DEV"` exactly as in the source,
so that it sorts below every other (lower-case) string. -/
inductive Tok where
  | num (n : ℕ)
  | inf
  | str (s : List Char)
deriving DecidableEq, Repr

/-- Parsed `_VersionOrder`: normalized string, epoch-prefixed version component
list, and local version component list. -/
structure VersionOrder where
  norm_version : List Char
  version : List (List Tok)
  localv : List (List Tok)
deriving DecidableEq, Repr

/-- Character class used by `_version_split_re`: digit run / star run / other run. -/
def charClass (c : Char) : ℕ :=
  if pyIsDigit c then 0 else if c = '*' then 1 else 2

/-- `_version_split_re.findall`: maximal runs of digits, `*`s, or other characters. -/
def splitRuns : List Char → List (List Char)
  | [] => []
  | c :: cs =>
    match splitRuns cs with
    | (d :: ds) :: rs =>
      if charClass c = charClass d then (c :: d :: ds) :: rs else [c] :: (d :: ds) :: rs
    | _ => [[c]]

/-- Python `str.isdigit` on a whole string: non-empty and all digits. -/
def isDigits (s : List Char) : Bool := !s.isEmpty && s.all pyIsDigit

/-- Numeric value of a digit run. -/
def toNatDigits (s : List Char) : ℕ :=
  s.foldl (fun a c => 10 * a + (c.toNat - 48)) 0

/-- Convert one run: digits to `num`, `'post'` to `inf`, `'dev'` to `"DEV"`,
anything else stays a string. -/
def procRun (r : List Char) : Tok :=
  if isDigits r then .num (toNatDigits r)
  else if r = "post".data then .inf
  else if r = "dev".data then .str "DEV".data
  else .str r

/-- Process one version component string: split into runs, convert each, and
prepend the fillvalue `0` when the component does not start with a digit.
An empty component is a `MalformedVersion` error. -/
def procComp (cs : List Char) : Except Err (List Tok) :=
  match cs with
  | [] => .error .malformedVersion
  | c :: _ =>
    let toks := (splitRuns cs).map procRun
    .ok (if pyIsDigit c then toks else .num 0 :: toks)

/-- Character set accepted by `_version_check_re`: `[*.+!_0-9a-z]`. -/
def allowedChar (c : Char) : Bool :=
  pyIsDigit c || (97 ≤ c.toNat && c.toNat ≤ 122) ||
    c = '*' || c = '.' || c = '+' || c = '!' || c = '_'

/-- Full-string check of `_version_check_re` (non-empty, all chars allowed). -/
def charsetOk (s : List Char) : Bool := !s.isEmpty && s.all allowedChar

/-- Normalization phase of `_VersionOrder.__new__`: strip, lower-case, validate
the character set, with the dash-to-underscore fallback.  Returns the
`norm_version` string. -/
def normalizeVersion (raw : List Char) : Except Err (List Char) :=
  let v := pyLower (pyStrip raw)
  if v = [] then .error .malformedVersion
  else if charsetOk v then .ok v
  else if ('-' ∈ v) ∧ ('_' ∉ v) then
    let w := replChar '-' '_' v
    if charsetOk w then .ok w else .error .malformedVersion
  else .error .malformedVersion

/-- Structural phase of `_VersionOrder.__new__` on the normalized string:
split off the epoch at `'!'`, the local version at `'+'`, split components at
`'.'` (after replacing `'_'` by `'.'`), and tokenize every component.
Returns the `(version, local)` component lists. -/
def parseParts (norm : List Char) :
    Except Err (List (List Tok) × List (List Tok)) := do
  let (epoch, rest) ←
    match splitChar '!' norm with
    | [v0] => pure (('0' :: []), v0)
    | [e, v0] => if isDigits e then pure (e, v0) else .error Err.malformedVersion
    | _ => .error Err.malformedVersion
  let (main, localStrs) ←
    match splitChar '+' rest with
    | [a] => pure (a, ([] : List (List Char)))
    | [a, b] => pure (a, splitChar '.' (replChar '_' '.' b))
    | _ => .error Err.malformedVersion
  let verStrs := epoch :: splitChar '.' (replChar '_' '.' main)
  let version ← listMapM procComp verStrs
  let localv ← listMapM procComp localStrs
  pure (version, localv)

/-- Combine the structural phase with the stored normalized string. -/
def parseNorm (norm : List Char) : Except Err VersionOrder := do
  let (version, localv) ← parseParts norm
  pure { norm_version := norm, version := version, localv := localv }

/-- `_VersionOrder.__new__` (memoization cache elided: parsing is pure). -/
def parseVersionOrder (raw : List Char) : Except Err VersionOrder := do
  parseNorm (← normalizeVersion raw)

/-- Remaining right-hand tokens compared against the fillvalue `0`. -/
def eqRunNil : List Tok → Bool
  | [] => true
  | b :: bs => Tok.num 0 == b && eqRunNil bs

/-- `_VersionOrder._eq` on two token lists (`zip_longest` with fillvalue `0`). -/
def eqRun : List Tok → List Tok → Bool
  | [], bs => eqRunNil bs
  | a :: as, [] => a == Tok.num 0 && eqRun as []
  | a :: as, b :: bs => a == b && eqRun as bs

/-- Remaining right-hand components compared against the fillvalue `[]`. -/
def eqCompsNil : List (List Tok) → Bool
  | [] => true
  | w :: ws => eqRun [] w && eqCompsNil ws

/-- `_VersionOrder._eq` on two component lists (`zip_longest` with fillvalue `[]`). -/
def eqComps : List (List Tok) → List (List Tok) → Bool
  | [], ws => eqCompsNil ws
  | v :: vs, [] => eqRun v [] && eqComps vs []
  | v :: vs, w :: ws => eqRun v w && eqComps vs ws

/-- `_VersionOrder.__eq__`. -/
def VersionOrder.eq (a b : VersionOrder) : Bool :=
  eqComps a.version b.version && eqComps a.localv b.localv

/-- The per-token-pair step of `_VersionOrder.__lt__`: `none` means the pair is
equal and the loop continues; `some r` means the loop returns `r`. -/
def ltTok (c1 c2 : Tok) : Option Bool :=
  if c1 = c2 then none
  else some (match c1, c2 with
    | .str s1, .str s2 => charsLt s1 s2
    | .str _, _ => true
    | _, .str _ => false
    | .num n1, .num n2 => decide (n1 < n2)
    | .num _, .inf => true
    | .inf, .num _ => false
    | .inf, .inf => false)

/-- `__lt__`'s inner loop when the left list is exhausted (fillvalue `0`). -/
def ltRunNil : List Tok → Option Bool
  | [] => none
  | b :: bs =>
    match ltTok (.num 0) b with | some r => some r | none => ltRunNil bs

/-- `__lt__`'s inner loop over one pair of token lists (fillvalue `0`). -/
def ltRun : List Tok → List Tok → Option Bool
  | [], bs => ltRunNil bs
  | a :: as, [] =>
    match ltTok a (.num 0) with | some r => some r | none => ltRun as []
  | a :: as, b :: bs =>
    match ltTok a b with | some r => some r | none => ltRun as bs

/-- `__lt__`'s middle loop when the left list is exhausted (fillvalue `[]`). -/
def ltCompsNil : List (List Tok) → Option Bool
  | [] => none
  | w :: ws =>
    match ltRun [] w with | some r => some r | none => ltCompsNil ws

/-- `__lt__`'s middle loop over one pair of component lists (fillvalue `[]`). -/
def ltComps : List (List Tok) → List (List Tok) → Option Bool
  | [], ws => ltCompsNil ws
  | v :: vs, [] =>
    match ltRun v [] with | some r => some r | none => ltComps vs []
  | v :: vs, w :: ws =>
    match ltRun v w with | some r => some r | none => ltComps vs ws

/-- `_VersionOrder.__lt__`: first unequal token pair over `(version, local)`
decides; full equality yields `False`. -/
def VersionOrder.lt (a b : VersionOrder) : Bool :=
  match ltComps a.version b.version with
  | some r => r
  | none =>
    match ltComps a.localv b.localv with
    | some r => r
    | none => false

/-- `_VersionOrder.startswith`. -/
def VersionOrder.startswith (self other : VersionOrder) : Bool :=
  let go (t1 t2 : List (List Tok)) : Bool :=
    let nt := t2.length - 1
    if ¬ eqComps (t1.take nt) (t2.take nt) then false
    else
      let v1 := if t1.length ≤ nt then [] else t1.getD nt []
      let v2 := t2.getD nt []
      let nr := v2.length - 1
      if ¬ eqComps [v1.take nr] [v2.take nr] then false
      else
        let c1 := if v1.length ≤ nr then Tok.num 0 else v1.getD nr (.num 0)
        let c2 := v2.getD nr (.num 0)
        match c2 with
        | .str s2 =>
          match c1 with
          | .str s1 => s2.isPrefixOf s1
          | _ => false
        | _ => c1 == c2
  if other.localv ≠ [] then
    if ¬ eqComps self.version other.version then false
    else go self.localv other.localv
  else if other.version ≠ [] then go self.version other.version
  else true

/-- `_VersionOrder.__str__` returns the normalized string. -/
def VersionOrder.str (v : VersionOrder) : List Char := v.norm_version

/-! ### A three-way comparison view of `__lt__` / `__eq__`

The source implements equality and less-than as two separate scans of the
same padded token sequences.  To prove the order laws we introduce an
`Ordering`-valued comparison with the same padding discipline, show that the
source's two scans are its `.eq` / `.lt` projections, and prove the
comparison transitive and oriented (in the sense of `Batteries.TransCmp`). -/

/-- Three-way version of Python's code-point string comparison. -/
def charsCmp : List Char → List Char → Ordering
  | [], [] => .eq
  | [], _ :: _ => .lt
  | _ :: _, [] => .gt
  | a :: as, b :: bs =>
    if a = b then charsCmp as bs
    else if a.toNat < b.toNat then .lt else .gt

/-- Three-way comparison on `ℕ` (proof-layer helper). -/
def natCmp (m n : ℕ) : Ordering :=
  if m < n then .lt else if n < m then .gt else .eq

/-- Three-way comparison of version tokens, matching the decision logic of
`_VersionOrder.__lt__`: strings sort below numbers, `inf` above them,
numbers numerically, strings by code points. -/
def tokCmp : Tok → Tok → Ordering
  | .num m, .num n => natCmp m n
  | .num _, .inf => .lt
  | .num _, .str _ => .gt
  | .inf, .num _ => .gt
  | .inf, .inf => .eq
  | .inf, .str _ => .gt
  | .str _, .num _ => .lt
  | .str _, .inf => .lt
  | .str s, .str t => charsCmp s t

section LexPad

variable {α : Type} (c : α → α → Ordering) (pad : α)

/-- Zip-wise lexicographic comparison (stops at the shorter list). -/
def zipCmp : List α → List α → Ordering
  | a :: as, b :: bs => (c a b).then (zipCmp as bs)
  | _, _ => .eq

/-- The padded lexicographic comparison when the left list is exhausted. -/
def lexCmpNil : List α → Ordering
  | [] => .eq
  | b :: bs => (c pad b).then (lexCmpNil bs)

/-- Padded lexicographic comparison: the shorter list is extended with `pad`,
exactly like `zip_longest(..., fillvalue=pad)` in the source's scans. -/
def lexCmp : List α → List α → Ordering
  | [], bs => lexCmpNil c pad bs
  | a :: as, [] => (c a pad).then (lexCmp as [])
  | a :: as, b :: bs => (c a b).then (lexCmp as bs)

/-- Pad a list with `pad` up to length `n`. -/
def padTo (n : ℕ) (l : List α) : List α := l ++ List.replicate (n - l.length) pad

end LexPad

/-- Three-way comparison with the run padding of the source (`fillvalue 0`). -/
def runCmp : List Tok → List Tok → Ordering := lexCmp tokCmp (Tok.num 0)

/-- Three-way comparison with the component padding of the source (`fillvalue []`). -/
def compsCmp : List (List Tok) → List (List Tok) → Ordering := lexCmp runCmp []

/-- Three-way comparison of two parsed versions: version lists first, then locals. -/
def voCmp (a b : VersionOrder) : Ordering :=
  (compsCmp a.version b.version).then (compsCmp a.localv b.localv)

/-- The result an `Ordering` induces on the `__lt__` scan: `none` continues,
`some r` returns `r`. -/
def ordToDec : Ordering → Option Bool
  | .lt => some true
  | .eq => none
  | .gt => some false

/-- Comparison of two version strings by `_VersionOrder.__lt__`
(`false` also when either string is malformed). -/
def voLtStr (a b : String) : Bool :=
  match parseVersionOrder a.data, parseVersionOrder b.data with
  | .ok x, .ok y => x.lt y
  | _, _ => false

/-- Comparison of two version strings by `_VersionOrder.__eq__`
(`false` also when either string is malformed). -/
def voEqStr (a b : String) : Bool :=
  match parseVersionOrder a.data, parseVersionOrder b.data with
  | .ok x, .ok y => x.eq y
  | _, _ => false

/-! ### `_VersionSpec` -/

/-- Relational operators accepted by `_version_relation_re`. -/
inductive RelOp where
  | eq | ne | le | ge | lt | gt
deriving DecidableEq, Repr

/-- `_opdict` applied as `self.op(_VersionOrder(vspec), self.cmp)`: the first
argument is the candidate, the second the stored bound.  Python's rich
comparisons are all defined from `__lt__` and `__eq__` in the source. -/
def relEval : RelOp → VersionOrder → VersionOrder → Bool
  | .eq, a, b => a.eq b
  | .ne, a, b => !(a.eq b)
  | .le, a, b => !(b.lt a)
  | .ge, a, b => !(a.lt b)
  | .lt, a, b => a.lt b
  | .gt, a, b => b.lt a

/-- The alternatives of `_version_relation_re`, in source order. -/
def relOpToks : List (List Char × RelOp) :=
  [("==".data, .eq), ("!=".data, .ne), ("<=".data, .le),
   (">=".data, .ge), ("<".data, .lt), (">".data, .gt)]

/-- `_version_relation_re.match(spec)`: an operator, not followed by another
operator character, followed by one whitespace-free token reaching the end of
the string.  On failure of a later requirement the regex engine backtracks to
the next operator alternative valid for the same input. -/
def relParse (s : List Char) : Option (RelOp × List Char) :=
  go relOpToks where
  go : List (List Char × RelOp) → Option (RelOp × List Char)
    | [] => none
    | (opToks, o) :: rest =>
      if opToks.isPrefixOf s then
        let b := s.drop opToks.length
        if (match b with
            | [] => true
            | c :: _ => !(c = '=' || c = '<' || c = '>' || c = '!')) &&
            !b.isEmpty && b.all (fun c => !pyIsSpace c) then
          some (o, b)
        else go rest
      else go rest

/-- Tag of a boolean combinator tuple.  Parsing produces the string tags
`'all'` / `'any'`; the `&` and `|` operators produce the Python builtin
functions `all` / `any` as tags — the source compares against both in
different places, so the distinction is semantically relevant. -/
inductive VTag where
  | allStr | anyStr | allFn | anyFn
deriving DecidableEq, Repr

/-- A compiled `_VersionSpec`: one constructor per `match` codepath, each
carrying the `spec` string stored on the instance (for combinators the
stored spec is the tag plus the children). -/
inductive VS where
  | exact (spec : List Char)
  | regex (spec : List Char)
  | rel (spec : List Char) (o : RelOp) (cmp : VersionOrder)
  | triv (spec : List Char)
  | wildcard (spec pattern : List Char)
  | pfx (spec : List Char) (cmp : VersionOrder)
  | combo (tag : VTag) (children : List VS)

/-- `_VersionSpec.__and__`: tags the tuple with the builtin `all`. -/
def vsAnd (a b : VS) : VS := .combo .allFn [a, b]

/-- `_VersionSpec.__or__`: tags the tuple with the builtin `any`. -/
def vsOr (a b : VS) : VS := .combo .anyFn [a, b]

/-- `_VersionSpec.is_exact`. -/
def VS.isExact : VS → Bool
  | .exact _ => true
  | _ => false

/-- Scan for the shortest `\S+?\$` completion of `_regex_split_re`, returning
the count of characters consumed (including the closing `'$'`). -/
def segScan : List Char → Option ℕ
  | [] => none
  | c :: cs =>
    if c = '$' then some 1
    else if pyIsSpace c then none
    else (segScan cs).map (· + 1)

/-- `_regex_split_re.match(spec)`: `(\^\S+?\$)` anchored at the start; returns
`m.end()`, the length of the shortest `^...$` prefix. -/
def regexSegEnd : List Char → Option ℕ
  | c0 :: c1 :: rest =>
    if c0 = '^' ∧ pyIsSpace c1 = false then (segScan rest).map (· + 2) else none
  | _ => none

/-- `_regex_split_converter`: `'|' ↦ 'any'`, `',' ↦ 'all'` (string tags);
any other key raises `KeyError`. -/
def regexSplitConverter (c : Char) : Option VTag :=
  if c = '|' then some .anyStr else if c = ',' then some .allStr else none

/-- Python `s.rstrip(t)` for a single strip character. -/
def rstripChar (t : Char) (s : List Char) : List Char :=
  (s.reverse.dropWhile (· = t)).reverse

/-- Python `s.replace(t, r)` for a one-character target. -/
def replStr (t : Char) (r : List Char) : List Char → List Char
  | [] => []
  | c :: cs => (if c = t then r else [c]) ++ replStr t r cs

/-- The wildcard regex of the `'*' in spec.rstrip('*')` branch:
escape `'.'` and `'+'`, turn `'*'` into `'.*'`, anchor. -/
def wildPat (s : List Char) : List Char :=
  "^(?:".data ++
    replStr '*' ".*".data (replStr '+' "\\+".data (replStr '.' "\\.".data s)) ++
    ")$".data

/-- The build regex of `_MatchSpec.__new__` (line 463): only `'*'` is
rewritten to `'.*'`; `'.'` is left unescaped. -/
def buildRx (b : List Char) : List Char :=
  "^(?:".data ++ replStr '*' ".*".data b ++ ")$".data

/-- Interpreter for the regex fragment this module generates: literal
characters, `\c` escapes, `'.'` (any one character), and `'.*'` (any run).
This models Python `re` on exactly the patterns built by `wildPat` /
`buildRx` over metacharacter-free inputs; arbitrary regexes (the `^...$`
leaf of `_VersionSpec`) are outside the fragment.  Fuel-based so that it
evaluates in the kernel; `p.length + s.length` steps always suffice. -/
def interpRe : ℕ → List Char → List Char → Bool
  | 0, _, _ => false
  | _ + 1, [], s => s.isEmpty
  | f + 1, p :: ps, s =>
    if p = '.' ∧ ps.head? = some '*' then
      interpRe f ps.tail s ||
        (match s with
         | [] => false
         | _ :: s2 => interpRe f (p :: ps) s2)
    else if p = '\\' then
      match ps with
      | [] => false
      | c :: ps2 =>
        match s with
        | [] => false
        | d :: s2 => c == d && interpRe f ps2 s2
    else if p = '.' then
      match s with
      | [] => false
      | _ :: s2 => interpRe f ps s2
    else
      match s with
      | [] => false
      | d :: s2 => p == d && interpRe f ps s2

/-- Strip the `^(?:` ... `)$` wrapper that `wildPat` / `buildRx` add. -/
def stripWrap (pat : List Char) : Option (List Char) :=
  match pat with
  | '^' :: '(' :: '?' :: ':' :: rest =>
    match rest.reverse with
    | '$' :: ')' :: mid => some mid.reverse
    | _ => none
  | _ => none

/-- `compiled_regex.match(s)` (with the full-string anchors of the generated
patterns).  Patterns outside the generated fragment yield `false`; no claim
depends on them. -/
def reMatch (pat : List Char) (s : List Char) : Bool :=
  match stripWrap pat with
  | some body => interpRe (body.length + s.length + 1) body s
  | none => false

/-- The regex-segment branch of `_VersionSpec.__new__`: a whole-string
`^...$` segment compiles as a regex leaf; a segment followed by `|`/`,`
splits into a string-tagged combinator of the segment and the remainder
(an unknown separator raises `KeyError`). -/
def compileVSRegex (rec : List Char → Except Err VS) (s : List Char) (j : ℕ) :
    Except Err VS :=
  if j = s.length then .ok (.regex s)
  else
    match regexSplitConverter (s.getD j ' ') with
    | none => .error .keyError
    | some tag => do
      let c1 ← rec (s.take j)
      let c2 ← rec (s.drop (j + 1))
      .ok (.combo tag [c1, c2])

/-- The non-regex `elif` chain of `_VersionSpec.__new__`, in source order:
`|`-split, `,`-split, relational, bare `*`, inner wildcard, trailing-star
prefix, exact. -/
def compileVSMain (rec : List Char → Except Err VS) (s : List Char) :
    Except Err VS :=
  if '|' ∈ s then do
    let cs ← listMapM rec (splitChar '|' s)
    .ok (.combo .anyStr cs)
  else if ',' ∈ s then do
    let cs ← listMapM rec (splitChar ',' s)
    .ok (.combo .allStr cs)
  else if (match s with
           | c :: _ => c = '=' || c = '<' || c = '>' || c = '!'
           | [] => false) then
    match relParse s with
    | none => .error .malformedSpec
    | some (o, b) => do
      let cmp ← parseVersionOrder b
      .ok (.rel s o cmp)
  else if s = ['*'] then .ok (.triv s)
  else if '*' ∈ rstripChar '*' s then .ok (.wildcard s (wildPat s))
  else if s.getLast? = some '*' then do
    let cmp ← parseVersionOrder (rstripChar '.' (rstripChar '*' s))
    .ok (.pfx s cmp)
  else .ok (.exact s)

/-- One dispatch round of `_VersionSpec.__new__` on a string spec, with the
recursive compilations abstracted as `rec`. -/
def compileVSStep (rec : List Char → Except Err VS) (s : List Char) :
    Except Err VS :=
  match regexSegEnd s with
  | some j => compileVSRegex rec s j
  | none => compileVSMain rec s

/-- `_VersionSpec.__new__` on a string spec, with explicit recursion fuel
(each recursive call is on a strictly shorter string, so `length + 1` fuel
never runs out; `compileVS` below supplies it). -/
def compileVSF : ℕ → List Char → Except Err VS
  | 0, _ => .error .outOfFuel
  | f + 1, s => compileVSStep (compileVSF f) s

/-- `_VersionSpec(spec)` for a string spec. -/
def compileVS (s : List Char) : Except Err VS := compileVSF (s.length + 1) s

mutual

/-- `_VersionSpec.str(inand)`.  Note the source's tag comparisons: `s[0] == all`
and `s[0] == any` compare against the Python builtins (true only for specs
built by `&`/`|`), while `s[0] == 'all'` compares against the string tag
produced by parsing. -/
def vsStr (inand : Bool) : VS → List Char
  | .exact s => s
  | .regex s => s
  | .rel s _ _ => s
  | .triv s => s
  | .wildcard s _ => s
  | .pfx s _ => s
  | .combo tag ch =>
    let newand := !inand && (tag == VTag.allFn)
    let inand2 := inand && (tag == VTag.anyFn)
    let sep : Char := if tag == VTag.allStr then ',' else '|'
    let s := vsStrList newand sep ch
    if inand2 then '(' :: (s ++ [')']) else s

/-- `','.join`/`'|'.join` over the children's serializations. -/
def vsStrList (inand : Bool) (sep : Char) : List VS → List Char
  | [] => []
  | [v] => vsStr inand v
  | v :: vs => vsStr inand v ++ sep :: vsStrList inand sep vs

end

mutual

/-- `_VersionSpec.match`.  The combinator dispatch compares the tag against
the string `'all'` only, exactly as the source's
`self.all_match_ if spec[0] == 'all' else self.any_match_` — so tuples tagged
with the builtin `all` (built by `&`) dispatch to ANY-semantics. -/
def vsMatch : VS → List Char → Except Err Bool
  | .exact spec, v => .ok (v == spec)
  | .regex spec, v => .ok (reMatch spec v)
  | .rel _ o cmp, v => do
    let a ← parseVersionOrder v
    .ok (relEval o a cmp)
  | .triv _, _ => .ok true
  | .wildcard _ pat, v => .ok (reMatch pat v)
  | .pfx _ cmp, v => do
    let a ← parseVersionOrder v
    .ok (a.startswith cmp)
  | .combo tag ch, v =>
    if tag = VTag.allStr then vsMatchAll ch v else vsMatchAny ch v

/-- `all(s.match(vspec) for s in children)`: short-circuits on `False`. -/
def vsMatchAll : List VS → List Char → Except Err Bool
  | [], _ => .ok true
  | c :: cs, v => do
    let b ← vsMatch c v
    if b then vsMatchAll cs v else .ok false

/-- `any(s.match(vspec) for s in children)`: short-circuits on `True`. -/
def vsMatchAny : List VS → List Char → Except Err Bool
  | [], _ => .ok false
  | c :: cs, v => do
    let b ← vsMatch c v
    if b then .ok true else vsMatchAny cs v

end

/-! ### `_MatchSpec` -/

/-- The `match_fast` dispatch of a compiled `_MatchSpec`, as a sum over the
four codepaths (`_match_any`, `_match_version`, `_match_exact`,
`_match_full`) with their stored operands. -/
inductive Matcher where
  | anyM
  | versionM (vspec : VS)
  | exactM (version build : List Char)
  | fullM (vspec : VS) (buildPat : List Char)

/-- A compiled `_MatchSpec`. -/
structure MatchSpec where
  name : List Char
  spec : List Char
  matcher : Matcher
  strictness : ℕ
  optional : Bool
  target : Option (List Char)

/-- Python `str.partition(t)` for one character, merged to
`(before, after)` — `after` is empty both when `t` is absent and when it is
the last character, matching the truthiness test `if oparts:`. -/
def partitionChar (t : Char) : List Char → (List Char × List Char)
  | [] => ([], [])
  | c :: cs =>
    if c = t then ([], cs)
    else
      let (a, b) := partitionChar t cs
      (c :: a, b)

/-- The attribute loop of `_MatchSpec.__new__`: `optional` sets the flag,
`target=<v>` records the target, anything else is malformed. -/
def parseAttrs : List (List Char) → Bool → Option (List Char) →
    Except Err (Bool × Option (List Char))
  | [], opt, tgt => .ok (opt, tgt)
  | p :: ps, opt, tgt =>
    if p = "optional".data then parseAttrs ps true tgt
    else if "target=".data.isPrefixOf p then
      parseAttrs ps opt (some (pyStrip ((splitChar '=' p).getD 1 [])))
    else .error .malformedSpec

/-- `CONDA_TARBALL_EXTENSION`. -/
def condaTarballExtension : List Char := ".tar.bz2".data

/-- `_MatchSpec.__new__` (string spec, explicit `normalize` flag, default
`target`/`optional` arguments).  The source nests `if normalize and ...`
inside `if vspec.is_exact():`; the conditions are pure, so they are flattened
here into one conjunction (with `normalize` first). -/
def compileMSNorm (s : List Char) (normalize : Bool) : Except Err MatchSpec := do
  let (body, oparts) := partitionChar '(' s
  let (opt, tgt) ←
    if oparts ≠ [] then
      let op := pyStrip oparts
      match op.getLast? with
      | none => .error Err.indexError
      | some c =>
        if c = ')' then parseAttrs (splitChar ',' op.dropLast) false none
        else .error Err.malformedSpec
    else .ok (false, none)
  let spec := pyStrip body
  let parts :=
    if condaTarballExtension.isSuffixOf spec then [spec] else splitWs spec
  match parts with
  | [n] =>
    .ok { name := n, spec := spec, matcher := .anyM, strictness := 1,
          optional := opt, target := tgt }
  | [n, vtok] => do
    let vspec ← compileVS vtok
    if normalize ∧ vspec.isExact ∧ vtok.getLast? ≠ some '*' then do
      let vtok2 := vtok ++ ['*']
      let vspec2 ← compileVS vtok2
      .ok { name := n, spec := joinSep ' ' [n, vtok2],
            matcher := .versionM vspec2, strictness := 2,
            optional := opt, target := tgt }
    else
      .ok { name := n, spec := spec, matcher := .versionM vspec,
            strictness := 2, optional := opt, target := tgt }
  | [n, vtok, btok] => do
    let vspec ← compileVS vtok
    if vspec.isExact ∧ '*' ∉ btok then
      .ok { name := n, spec := spec, matcher := .exactM vtok btok,
            strictness := 3, optional := opt, target := tgt }
    else if normalize ∧ vspec.isExact ∧ vtok.getLast? ≠ some '*' then do
      let vtok2 := vtok ++ ['*']
      let vspec2 ← compileVS vtok2
      .ok { name := n, spec := joinSep ' ' [n, vtok2, btok],
            matcher := .fullM vspec2 (buildRx btok), strictness := 2,
            optional := opt, target := tgt }
    else
      .ok { name := n, spec := spec, matcher := .fullM vspec (buildRx btok),
            strictness := 2, optional := opt, target := tgt }
  | _ => .error Err.assertionError

/-- `_MatchSpec(spec)` with default arguments (`normalize=False`). -/
def compileMS (s : List Char) : Except Err MatchSpec := compileMSNorm s false

/-- `match_fast` dispatch. -/
def msMatchFast (m : MatchSpec) (version build : List Char) : Except Err Bool :=
  match m.matcher with
  | .anyM => .ok true
  | .versionM vs => vsMatch vs version
  | .exactM v b => .ok (build == b && version == v)
  | .fullM vs bpat =>
    if reMatch bpat build then vsMatch vs version else .ok false

/-- `_MatchSpec.match` on a candidate `(name, version, build_string)`:
name mismatch short-circuits to `False`. -/
def msMatch (m : MatchSpec) (name version build : List Char) : Except Err Bool :=
  if name ≠ m.name then .ok false
  else msMatchFast m version build

/-- Compile a spec string and match one candidate. -/
def msEval (spec name version build : String) : Except Err Bool := do
  let m ← compileMS spec.data
  msMatch m name.data version.data build.data

/-- Truthiness of the stored `target` (Python: `None` and `''` are falsy). -/
def targetTruthy : Option (List Char) → Bool
  | none => false
  | some t => !t.isEmpty

/-- `_MatchSpec.__str__`: appends ` (attr,...)` when `optional` or a truthy
`target` is set. -/
def msStr (m : MatchSpec) : List Char :=
  if m.optional || targetTruthy m.target then
    m.spec ++ " (".data ++
      joinSep ','
        ((if m.optional then ["optional".data] else []) ++
          (match m.target with
           | some t => if t.isEmpty then [] else ["target=".data ++ t]
           | none => [])) ++ [')']
  else m.spec

/-- `_MatchSpec.__hash__` is `hash(self.spec)`: the string the hash is
computed from is the attribute-free `spec` field, not `str(self)`. -/
def msHashInput (m : MatchSpec) : List Char := m.spec

/-- Glob semantics of a build token under the unescaped build regex:
`'*'` matches any run, `'.'` matches any single character (because it is not
escaped), anything else is literal. -/
def globTok : ℕ → List Char → List Char → Bool
  | 0, _, _ => false
  | _ + 1, [], s => s.isEmpty
  | f + 1, p :: ps, s =>
    if p = '*' then
      globTok f ps s ||
        (match s with
         | [] => false
         | _ :: s2 => globTok f (p :: ps) s2)
    else if p = '.' then
      match s with
      | [] => false
      | _ :: s2 => globTok f ps s2
    else
      match s with
      | [] => false
      | d :: s2 => p == d && globTok f ps s2

/-- Glob matching of a build token with sufficient fuel. -/
def globMatch (b s : List Char) : Bool := globTok (b.length + s.length + 1) b s

/-- Build-token characters for which the generated regex fragment has plain
glob semantics (no regex metacharacters other than the intended `*` and the
unescaped `.`). -/
def safeBuildChar (c : Char) : Bool :=
  c.isAlpha || pyIsDigit c || c = '_' || c = '.' || c = '*' || c = '-'

/-! ### Laws of the three-way comparisons

We now prove the comparison layer oriented and transitive, and identify the
source's `__lt__` / `_eq` scans with the `.lt` / `.eq` projections of the
padded comparison. -/

/-- Build a `Batteries.TransCmp` from equality-reflection, swap, and
`lt`-transitivity (enough when `.eq` coincides with equality). -/
theorem transCmp_mk (c : α → α → Ordering) (heq : ∀ a b, c a b = .eq ↔ a = b)
    (hsymm : ∀ a b, (c a b).swap = c b a)
    (htrans : ∀ a b d, c a b = .lt → c b d = .lt → c a d = .lt) :
    Batteries.TransCmp c := by
  refine { symm := hsymm, le_trans := ?_ }
  intro x y z hxy hyz
  rcases e1 : c x y with _ | _ | _
  · rcases e2 : c y z with _ | _ | _
    · simp [htrans x y z e1 e2]
    · have hz : y = z := (heq y z).mp e2
      subst hz
      simp [e1]
    · exact absurd e2 hyz
  · have hz : x = y := (heq x y).mp e1
    subst hz
    exact hyz
  · exact absurd e1 hxy

theorem charToNat_inj {a b : Char} (h : a.toNat = b.toNat) : a = b := by
  have ha := Char.ofNat_toNat a
  rw [← ha, h, Char.ofNat_toNat]

theorem charsCmp_eq_iff : ∀ a b, charsCmp a b = .eq ↔ a = b := by
  intro a
  induction a with
  | nil => intro b; cases b <;> simp [charsCmp]
  | cons x xs ih =>
    intro b
    cases b with
    | nil => simp [charsCmp]
    | cons y ys =>
      by_cases hxy : x = y
      · subst hxy
        simp [charsCmp, ih]
      · have : ¬ (x :: xs = y :: ys) := by simp [hxy]
        simp only [charsCmp, if_neg hxy]
        constructor
        · intro h
          by_cases hlt : x.toNat < y.toNat <;> simp [hlt] at h
        · intro h
          exact absurd h this

theorem charsCmp_symm : ∀ a b, (charsCmp a b).swap = charsCmp b a := by
  intro a
  induction a with
  | nil => intro b; cases b <;> rfl
  | cons x xs ih =>
    intro b
    cases b with
    | nil => rfl
    | cons y ys =>
      by_cases hxy : x = y
      · subst hxy
        simp [charsCmp, ih]
      · have hyx : ¬ y = x := fun h => hxy h.symm
        have hne : x.toNat ≠ y.toNat := fun h => hxy (charToNat_inj h)
        by_cases hlt : x.toNat < y.toNat
        · have : ¬ y.toNat < x.toNat := by omega
          simp [charsCmp, hxy, hyx, hlt, this, Ordering.swap]
        · have : y.toNat < x.toNat := by omega
          simp [charsCmp, hxy, hyx, hlt, this, Ordering.swap]

theorem charsCmp_lt_trans :
    ∀ a b d, charsCmp a b = .lt → charsCmp b d = .lt → charsCmp a d = .lt := by
  intro a
  induction a with
  | nil =>
    intro b d hab hbd
    cases b with
    | nil => simp [charsCmp] at hab
    | cons y ys =>
      cases d with
      | nil => simp [charsCmp] at hbd
      | cons z zs => simp [charsCmp]
  | cons x xs ih =>
    intro b d hab hbd
    cases b with
    | nil => simp [charsCmp] at hab
    | cons y ys =>
      cases d with
      | nil => simp [charsCmp] at hbd
      | cons z zs =>
        simp only [charsCmp] at hab hbd ⊢
        by_cases hxy : x = y
        · subst hxy
          by_cases hxz : x = z
          · subst hxz
            simp only [if_pos rfl] at hab hbd ⊢
            exact ih _ _ hab hbd
          · simpa [hxz] using hbd
        · by_cases hyz : y = z
          · subst hyz
            simpa [hxy] using hab
          · rw [if_neg hxy] at hab
            rw [if_neg hyz] at hbd
            by_cases h1 : x.toNat < y.toNat
            · by_cases h2 : y.toNat < z.toNat
              · have hxz : ¬ x = z := by
                  intro h
                  subst h
                  omega
                have hlt : x.toNat < z.toNat := by omega
                simp [hxz, hlt]
              · simp [h2] at hbd
            · simp [h1] at hab

instance charsCmp_transCmp : Batteries.TransCmp charsCmp :=
  transCmp_mk charsCmp charsCmp_eq_iff charsCmp_symm charsCmp_lt_trans

theorem natCmp_eq_iff : ∀ a b, natCmp a b = .eq ↔ a = b := by
  intro a b
  unfold natCmp
  by_cases h1 : a < b
  · simp [h1]
    omega
  · by_cases h2 : b < a <;> simp [h1, h2] <;> omega

theorem natCmp_symm : ∀ a b, (natCmp a b).swap = natCmp b a := by
  intro a b
  unfold natCmp
  by_cases h1 : a < b
  · have : ¬ b < a := by omega
    simp [h1, this, Ordering.swap]
  · by_cases h2 : b < a <;> simp [h1, h2, Ordering.swap]

theorem natCmp_lt : ∀ a b, natCmp a b = .lt ↔ a < b := by
  intro a b
  unfold natCmp
  by_cases h1 : a < b
  · simp [h1]
  · by_cases h2 : b < a <;> simp [h1, h2]

theorem natCmp_lt_trans :
    ∀ a b d, natCmp a b = .lt → natCmp b d = .lt → natCmp a d = .lt := by
  intro a b d hab hbd
  rw [natCmp_lt] at *
  omega


theorem tokCmp_eq_iff : ∀ a b, tokCmp a b = .eq ↔ a = b := by
  intro a b
  cases a <;> cases b <;> simp [tokCmp, natCmp_eq_iff, charsCmp_eq_iff]

theorem tokCmp_symm : ∀ a b, (tokCmp a b).swap = tokCmp b a := by
  intro a b
  cases a <;> cases b <;>
    first
      | exact natCmp_symm _ _
      | exact charsCmp_symm _ _
      | rfl

theorem tokCmp_lt_trans :
    ∀ a b d, tokCmp a b = .lt → tokCmp b d = .lt → tokCmp a d = .lt := by
  intro a b d hab hbd
  cases a <;> cases b <;> cases d <;>
    simp_all [tokCmp]
  · exact natCmp_lt_trans _ _ _ hab hbd
  · exact charsCmp_lt_trans _ _ _ hab hbd

instance tokCmp_transCmp : Batteries.TransCmp tokCmp :=
  transCmp_mk tokCmp tokCmp_eq_iff tokCmp_symm tokCmp_lt_trans

/-- Reflexivity of an oriented comparison, with the comparison explicit. -/
theorem orientedCmp_refl {α : Type} (c : α → α → Ordering) [Batteries.OrientedCmp c]
    (x : α) : c x x = .eq :=
  Batteries.OrientedCmp.cmp_refl

section LexPadLaws

variable {α : Type} (c : α → α → Ordering) (pad : α)

theorem padTo_nil (n : ℕ) : padTo pad n [] = List.replicate n pad := by
  simp [padTo]

theorem padTo_cons (n : ℕ) (x : α) (xs : List α) :
    padTo pad (n + 1) (x :: xs) = x :: padTo pad n xs := by
  simp [padTo, Nat.succ_sub_succ]

theorem padTo_length (n : ℕ) (l : List α) (h : l.length ≤ n) :
    (padTo pad n l).length = n := by
  simp [padTo]
  omega

theorem zipCmp_symm [Batteries.OrientedCmp c] :
    ∀ a b, zipCmp c b a = (zipCmp c a b).swap := by
  intro a
  induction a with
  | nil => intro b; cases b <;> rfl
  | cons x xs ih =>
    intro b
    cases b with
    | nil => rfl
    | cons y ys =>
      show (c y x).then (zipCmp c ys xs) = ((c x y).then (zipCmp c xs ys)).swap
      rw [Ordering.swap_then, Batteries.OrientedCmp.symm, ih]

theorem zipCmp_pad_refl [Batteries.OrientedCmp c] :
    ∀ n, zipCmp c (List.replicate n pad) (List.replicate n pad) = .eq := by
  intro n
  induction n with
  | zero => rfl
  | succ n ih =>
    show (c pad pad).then (zipCmp c (List.replicate n pad) (List.replicate n pad)) = .eq
    rw [orientedCmp_refl c, ih]
    rfl

theorem zipCmp_le_trans [Batteries.TransCmp c] :
    ∀ a b d, a.length = b.length → b.length = d.length →
      zipCmp c a b ≠ .gt → zipCmp c b d ≠ .gt → zipCmp c a d ≠ .gt := by
  intro a
  induction a with
  | nil =>
    intro b d hab hbd _ _
    have hb : b = [] := List.eq_nil_of_length_eq_zero hab.symm
    subst hb
    have hd : d = [] := List.eq_nil_of_length_eq_zero hbd.symm
    subst hd
    simp [zipCmp]
  | cons x xs ih =>
    intro b d hab hbd h1 h2
    cases b with
    | nil => simp at hab
    | cons y ys =>
      cases d with
      | nil => simp at hbd
      | cons z zs =>
        simp only [List.length_cons, Nat.add_right_cancel_iff] at hab hbd
        have h1' : (c x y).then (zipCmp c xs ys) ≠ .gt := h1
        have h2' : (c y z).then (zipCmp c ys zs) ≠ .gt := h2
        show (c x z).then (zipCmp c xs zs) ≠ .gt
        rcases e1 : c x y with _ | _ | _
        · rcases e2 : c y z with _ | _ | _
          · rw [Batteries.TransCmp.lt_trans e1 e2]
            simp [Ordering.then]
          · rw [← Batteries.TransCmp.cmp_congr_right e2, e1]
            simp [Ordering.then]
          · rw [e2] at h2'
            simp [Ordering.then] at h2'
        · rcases e2 : c y z with _ | _ | _
          · rw [Batteries.TransCmp.cmp_congr_left e1, e2]
            simp [Ordering.then]
          · rw [Batteries.TransCmp.cmp_congr_left e1, e2]
            rw [e1] at h1'
            rw [e2] at h2'
            simp only [Ordering.then] at h1' h2' ⊢
            exact ih ys zs hab hbd h1' h2'
          · rw [e2] at h2'
            simp [Ordering.then] at h2'
        · rw [e1] at h1'
          simp [Ordering.then] at h1'

theorem lexCmp_eq_zip [Batteries.OrientedCmp c] :
    ∀ n a b, a.length ≤ n → b.length ≤ n →
      lexCmp c pad a b = zipCmp c (padTo pad n a) (padTo pad n b) := by
  intro n
  induction n with
  | zero =>
    intro a b ha hb
    have ha' : a = [] := List.eq_nil_of_length_eq_zero (Nat.le_zero.mp ha)
    have hb' : b = [] := List.eq_nil_of_length_eq_zero (Nat.le_zero.mp hb)
    subst ha'
    subst hb'
    rfl
  | succ n ih =>
    intro a b ha hb
    cases a with
    | nil =>
      cases b with
      | nil =>
        rw [padTo_nil, zipCmp_pad_refl]
        rfl
      | cons y ys =>
        rw [padTo_nil, List.replicate_succ, ← padTo_nil pad, padTo_cons]
        show lexCmpNil c pad (y :: ys) =
          (c pad y).then (zipCmp c (padTo pad n []) (padTo pad n ys))
        rw [← ih [] ys (by simp) (by simpa using hb)]
        rfl
    | cons x xs =>
      cases b with
      | nil =>
        rw [padTo_cons, padTo_nil, List.replicate_succ, ← padTo_nil pad]
        show (c x pad).then (lexCmp c pad xs []) =
          (c x pad).then (zipCmp c (padTo pad n xs) (padTo pad n []))
        rw [← ih xs [] (by simpa using ha) (by simp)]
      | cons y ys =>
        rw [padTo_cons, padTo_cons]
        show (c x y).then (lexCmp c pad xs ys) =
          (c x y).then (zipCmp c (padTo pad n xs) (padTo pad n ys))
        rw [← ih xs ys (by simpa using ha) (by simpa using hb)]

theorem lexCmp_symm [Batteries.OrientedCmp c] :
    ∀ a b, lexCmp c pad b a = (lexCmp c pad a b).swap := by
  intro a b
  rw [lexCmp_eq_zip c pad (max a.length b.length) a b (Nat.le_max_left _ _)
        (Nat.le_max_right _ _),
      lexCmp_eq_zip c pad (max a.length b.length) b a (Nat.le_max_right _ _)
        (Nat.le_max_left _ _),
      zipCmp_symm]

theorem lexCmp_le_trans [Batteries.TransCmp c] :
    ∀ a b d, lexCmp c pad a b ≠ .gt → lexCmp c pad b d ≠ .gt →
      lexCmp c pad a d ≠ .gt := by
  intro a b d h1 h2
  have hla : a.length ≤ max (max a.length b.length) d.length := by omega
  have hlb : b.length ≤ max (max a.length b.length) d.length := by omega
  have hld : d.length ≤ max (max a.length b.length) d.length := by omega
  rw [lexCmp_eq_zip c pad _ a b hla hlb] at h1
  rw [lexCmp_eq_zip c pad _ b d hlb hld] at h2
  rw [lexCmp_eq_zip c pad _ a d hla hld]
  exact zipCmp_le_trans c _ _ _
    (by rw [padTo_length _ _ _ hla, padTo_length _ _ _ hlb])
    (by rw [padTo_length _ _ _ hlb, padTo_length _ _ _ hld]) h1 h2

theorem lexCmp_transCmp [Batteries.TransCmp c] : Batteries.TransCmp (lexCmp c pad) where
  symm x y := (lexCmp_symm c pad x y).symm
  le_trans h1 h2 := lexCmp_le_trans c pad _ _ _ h1 h2

end LexPadLaws

instance runCmp_transCmp : Batteries.TransCmp runCmp :=
  lexCmp_transCmp tokCmp (Tok.num 0)

instance compsCmp_transCmp : Batteries.TransCmp compsCmp :=
  lexCmp_transCmp runCmp []

theorem voCmp_symm (a b : VersionOrder) : voCmp b a = (voCmp a b).swap := by
  unfold voCmp
  rw [Ordering.swap_then, Batteries.OrientedCmp.symm, Batteries.OrientedCmp.symm]

theorem voCmp_lt_trans :
    ∀ a b d, voCmp a b = .lt → voCmp b d = .lt → voCmp a d = .lt := by
  intro a b d hab hbd
  unfold voCmp at *
  rw [Ordering.then_eq_lt] at hab hbd ⊢
  rcases hab with h1 | ⟨h1, h2⟩
  · rcases hbd with h3 | ⟨h3, h4⟩
    · exact Or.inl (Batteries.TransCmp.lt_trans h1 h3)
    · exact Or.inl (by rw [Batteries.TransCmp.cmp_congr_right h3] at h1; exact h1)
  · rcases hbd with h3 | ⟨h3, h4⟩
    · exact Or.inl (by rw [← Batteries.TransCmp.cmp_congr_left h1] at h3; exact h3)
    · refine Or.inr ⟨?_, ?_⟩
      · rw [Batteries.TransCmp.cmp_congr_left h1, h3]
      · exact Batteries.TransCmp.lt_trans h2 h4

theorem ordToDec_then (o p : Ordering) :
    ordToDec (o.then p) =
      match ordToDec o with
      | some r => some r
      | none => ordToDec p := by
  cases o <;> rfl

theorem charsLt_eq_cmp : ∀ s t, charsLt s t = decide (charsCmp s t = .lt) := by
  intro s
  induction s with
  | nil => intro t; cases t <;> rfl
  | cons x xs ih =>
    intro t
    cases t with
    | nil => rfl
    | cons y ys =>
      by_cases hxy : x = y
      · subst hxy
        simp only [charsLt, charsCmp, if_pos rfl]
        exact ih ys
      · simp only [charsLt, charsCmp, if_neg hxy]
        by_cases hlt : x.toNat < y.toNat <;> simp [hlt]

theorem ltTok_eq : ∀ c1 c2, ltTok c1 c2 = ordToDec (tokCmp c1 c2) := by
  intro c1 c2
  by_cases h : c1 = c2
  · subst h
    have : tokCmp c1 c1 = .eq := (tokCmp_eq_iff c1 c1).mpr rfl
    rw [this]
    simp [ltTok, ordToDec]
  · unfold ltTok
    rw [if_neg h]
    cases c1 with
    | num m =>
      cases c2 with
      | num n =>
        have hmn : m ≠ n := fun e => h (by rw [e])
        show some (decide (m < n)) = ordToDec (natCmp m n)
        unfold natCmp
        by_cases h1 : m < n
        · simp [h1, ordToDec]
        · have h2 : n < m := by omega
          simp [h1, h2, ordToDec]
      | inf => rfl
      | str s => rfl
    | inf =>
      cases c2 with
      | num n => rfl
      | inf => exact absurd rfl h
      | str s => rfl
    | str s =>
      cases c2 with
      | num n => rfl
      | inf => rfl
      | str t =>
        show some (charsLt s t) = ordToDec (charsCmp s t)
        rw [charsLt_eq_cmp]
        have hst : s ≠ t := fun e => h (by rw [e])
        rcases e : charsCmp s t with _ | _ | _
        · rfl
        · exact absurd ((charsCmp_eq_iff s t).mp e) hst
        · rfl

theorem ltRunNil_eq : ∀ bs, ltRunNil bs = ordToDec (lexCmpNil tokCmp (Tok.num 0) bs) := by
  intro bs
  induction bs with
  | nil => rfl
  | cons b bs ih =>
    show (match ltTok (.num 0) b with
          | some r => some r
          | none => ltRunNil bs) =
      ordToDec ((tokCmp (.num 0) b).then (lexCmpNil tokCmp (Tok.num 0) bs))
    rw [ordToDec_then, ltTok_eq, ih]

theorem ltRun_eq : ∀ as bs, ltRun as bs = ordToDec (runCmp as bs) := by
  intro as
  induction as with
  | nil => intro bs; exact ltRunNil_eq bs
  | cons a as ih =>
    intro bs
    cases bs with
    | nil =>
      show (match ltTok a (.num 0) with
            | some r => some r
            | none => ltRun as []) =
        ordToDec ((tokCmp a (.num 0)).then (lexCmp tokCmp (Tok.num 0) as []))
      rw [ordToDec_then, ltTok_eq, ih []]
      rfl
    | cons b bs =>
      show (match ltTok a b with
            | some r => some r
            | none => ltRun as bs) =
        ordToDec ((tokCmp a b).then (lexCmp tokCmp (Tok.num 0) as bs))
      rw [ordToDec_then, ltTok_eq, ih bs]
      rfl

theorem ltCompsNil_eq : ∀ ws, ltCompsNil ws = ordToDec (lexCmpNil runCmp [] ws) := by
  intro ws
  induction ws with
  | nil => rfl
  | cons w ws ih =>
    show (match ltRun [] w with
          | some r => some r
          | none => ltCompsNil ws) =
      ordToDec ((runCmp [] w).then (lexCmpNil runCmp [] ws))
    rw [ordToDec_then, ltRun_eq, ih]

theorem ltComps_eq : ∀ vs ws, ltComps vs ws = ordToDec (compsCmp vs ws) := by
  intro vs
  induction vs with
  | nil => intro ws; exact ltCompsNil_eq ws
  | cons v vs ih =>
    intro ws
    cases ws with
    | nil =>
      show (match ltRun v [] with
            | some r => some r
            | none => ltComps vs []) =
        ordToDec ((runCmp v []).then (lexCmp runCmp [] vs []))
      rw [ordToDec_then, ltRun_eq, ih []]
      rfl
    | cons w ws =>
      show (match ltRun v w with
            | some r => some r
            | none => ltComps vs ws) =
        ordToDec ((runCmp v w).then (lexCmp runCmp [] vs ws))
      rw [ordToDec_then, ltRun_eq, ih ws]
      rfl

theorem eqRunNil_eq : ∀ bs, (eqRunNil bs = true ↔ lexCmpNil tokCmp (Tok.num 0) bs = .eq) := by
  intro bs
  induction bs with
  | nil => simp [eqRunNil, lexCmpNil]
  | cons b bs ih =>
    show (Tok.num 0 == b && eqRunNil bs) = true ↔
      (tokCmp (.num 0) b).then (lexCmpNil tokCmp (Tok.num 0) bs) = .eq
    rw [Ordering.then_eq_eq, Bool.and_eq_true, beq_iff_eq, ← tokCmp_eq_iff, ih]

theorem eqRun_eq : ∀ as bs, (eqRun as bs = true ↔ runCmp as bs = .eq) := by
  intro as
  induction as with
  | nil => intro bs; exact eqRunNil_eq bs
  | cons a as ih =>
    intro bs
    cases bs with
    | nil =>
      show (a == Tok.num 0 && eqRun as []) = true ↔
        (tokCmp a (.num 0)).then (lexCmp tokCmp (Tok.num 0) as []) = .eq
      rw [Ordering.then_eq_eq, Bool.and_eq_true, beq_iff_eq, ← tokCmp_eq_iff, ih []]
      exact Iff.rfl
    | cons b bs =>
      show (a == b && eqRun as bs) = true ↔
        (tokCmp a b).then (lexCmp tokCmp (Tok.num 0) as bs) = .eq
      rw [Ordering.then_eq_eq, Bool.and_eq_true, beq_iff_eq, ← tokCmp_eq_iff, ih bs]
      exact Iff.rfl

theorem eqCompsNil_eq : ∀ ws, (eqCompsNil ws = true ↔ lexCmpNil runCmp [] ws = .eq) := by
  intro ws
  induction ws with
  | nil => simp [eqCompsNil, lexCmpNil]
  | cons w ws ih =>
    show (eqRun [] w && eqCompsNil ws) = true ↔
      (runCmp [] w).then (lexCmpNil runCmp [] ws) = .eq
    rw [Ordering.then_eq_eq, Bool.and_eq_true, eqRun_eq, ih]

theorem eqComps_eq : ∀ vs ws, (eqComps vs ws = true ↔ compsCmp vs ws = .eq) := by
  intro vs
  induction vs with
  | nil => intro ws; exact eqCompsNil_eq ws
  | cons v vs ih =>
    intro ws
    cases ws with
    | nil =>
      show (eqRun v [] && eqComps vs []) = true ↔
        (runCmp v []).then (lexCmp runCmp [] vs []) = .eq
      rw [Ordering.then_eq_eq, Bool.and_eq_true, eqRun_eq, ih []]
      exact Iff.rfl
    | cons w ws =>
      show (eqRun v w && eqComps vs ws) = true ↔
        (runCmp v w).then (lexCmp runCmp [] vs ws) = .eq
      rw [Ordering.then_eq_eq, Bool.and_eq_true, eqRun_eq, ih ws]
      exact Iff.rfl

theorem lt_iff_voCmp (a b : VersionOrder) : a.lt b = true ↔ voCmp a b = .lt := by
  unfold VersionOrder.lt voCmp
  rw [ltComps_eq, ltComps_eq]
  rcases e1 : compsCmp a.version b.version with _ | _ | _ <;>
    rcases e2 : compsCmp a.localv b.localv with _ | _ | _ <;>
      simp [ordToDec, Ordering.then]

theorem eq_iff_voCmp (a b : VersionOrder) : a.eq b = true ↔ voCmp a b = .eq := by
  unfold VersionOrder.eq voCmp
  rw [Bool.and_eq_true, eqComps_eq, eqComps_eq, Ordering.then_eq_eq]

theorem bool_eq_false {b : Bool} (h : b = true → False) : b = false := by
  cases b
  · rfl
  · exact absurd rfl h

theorem vo_eq_refl (v : VersionOrder) : v.eq v = true := by
  rw [eq_iff_voCmp]
  unfold voCmp
  rw [orientedCmp_refl compsCmp, orientedCmp_refl compsCmp]
  rfl

theorem parseNorm_norm {n : List Char} {v : VersionOrder}
    (h : parseNorm n = .ok v) : v.norm_version = n := by
  unfold parseNorm at h
  cases e : parseParts n with
  | error err =>
    rw [e] at h
    exact absurd h (by simp [Bind.bind, Except.bind])
  | ok p =>
    rw [e] at h
    simp [Bind.bind, Except.bind, pure, Except.pure] at h
    rw [← h]

theorem normalizeVersion_charset {raw n : List Char}
    (h : normalizeVersion raw = .ok n) : charsetOk n = true := by
  unfold normalizeVersion at h
  by_cases h1 : pyLower (pyStrip raw) = []
  · rw [if_pos h1] at h
    cases h
  · rw [if_neg h1] at h
    by_cases h2 : charsetOk (pyLower (pyStrip raw)) = true
    · rw [if_pos h2] at h
      cases h
      exact h2
    · rw [if_neg h2] at h
      by_cases h3 : ('-' ∈ pyLower (pyStrip raw)) ∧ ('_' ∉ pyLower (pyStrip raw))
      · rw [if_pos h3] at h
        by_cases h4 : charsetOk (replChar '-' '_' (pyLower (pyStrip raw))) = true
        · rw [if_pos h4] at h
          cases h
          exact h4
        · rw [if_neg h4] at h
          cases h
      · rw [if_neg h3] at h
        cases h

theorem allowedChar_toNat {c : Char} (h : allowedChar c = true) :
    (48 ≤ c.toNat ∧ c.toNat ≤ 57) ∨ (97 ≤ c.toNat ∧ c.toNat ≤ 122) ∨
    c.toNat = 42 ∨ c.toNat = 46 ∨ c.toNat = 43 ∨ c.toNat = 33 ∨ c.toNat = 95 := by
  unfold allowedChar pyIsDigit at h
  simp only [Bool.or_eq_true, Bool.and_eq_true, decide_eq_true_eq] at h
  rcases h with ((((((h | h) | h) | h) | h) | h) | h)
  · exact Or.inl h
  · exact Or.inr (Or.inl h)
  · subst h; right; right; left; rfl
  · subst h; right; right; right; left; rfl
  · subst h; right; right; right; right; left; rfl
  · subst h; right; right; right; right; right; left; rfl
  · subst h; right; right; right; right; right; right; rfl

theorem allowedChar_not_space {c : Char} (h : allowedChar c = true) :
    pyIsSpace c = false := by
  have hn := allowedChar_toNat h
  unfold pyIsSpace
  simp only [Bool.or_eq_false_iff, decide_eq_false_iff_not]
  omega

theorem allowedChar_lower_fix {c : Char} (h : allowedChar c = true) :
    pyLowerChar c = c := by
  have hn := allowedChar_toNat h
  unfold pyLowerChar
  rw [if_neg (by omega)]

theorem dropWhile_eq_self_of {p : Char → Bool} {l : List Char}
    (h : ∀ c ∈ l, p c = false) : l.dropWhile p = l := by
  cases l with
  | nil => rfl
  | cons x xs => simp [List.dropWhile_cons, h x (by simp)]

theorem map_eq_self_of {f : Char → Char} {l : List Char}
    (h : ∀ c ∈ l, f c = c) : l.map f = l := by
  induction l with
  | nil => rfl
  | cons x xs ih =>
    rw [List.map_cons, h x (by simp), ih (fun c hc => h c (by simp [hc]))]

theorem charset_strip_lower_fix {n : List Char} (h : charsetOk n = true) :
    pyLower (pyStrip n) = n := by
  unfold charsetOk at h
  rw [Bool.and_eq_true, List.all_eq_true] at h
  have hall : ∀ c ∈ n, allowedChar c = true := fun c hc => h.2 c hc
  have hstrip : pyStrip n = n := by
    unfold pyStrip
    rw [dropWhile_eq_self_of (fun c hc => allowedChar_not_space (hall c hc))]
    rw [dropWhile_eq_self_of (fun c hc =>
      allowedChar_not_space (hall c (List.mem_reverse.mp hc)))]
    exact List.reverse_reverse n
  rw [hstrip]
  exact map_eq_self_of (fun c hc => allowedChar_lower_fix (hall c hc))

theorem normalizeVersion_fix {n : List Char} (h : charsetOk n = true) :
    normalizeVersion n = .ok n := by
  unfold normalizeVersion
  rw [charset_strip_lower_fix h]
  have hne : n ≠ [] := by
    intro e
    subst e
    simp [charsetOk, List.isEmpty] at h
  rw [if_neg hne, if_pos h]

theorem parseVersionOrder_norm_fix {s : List Char} {v : VersionOrder}
    (h : parseVersionOrder s = .ok v) :
    parseVersionOrder v.norm_version = .ok v ∧ charsetOk v.norm_version = true := by
  unfold parseVersionOrder at h ⊢
  cases e : normalizeVersion s with
  | error err =>
    rw [e] at h
    exact absurd h (by simp [Bind.bind, Except.bind])
  | ok n =>
    rw [e] at h
    simp only [Bind.bind, Except.bind] at h ⊢
    have hcs : charsetOk n = true := normalizeVersion_charset e
    have hnv : v.norm_version = n := parseNorm_norm h
    rw [hnv, normalizeVersion_fix hcs]
    exact ⟨h, hcs⟩

/-- C1: for all valid version strings `a`, `b`, `c`, the `_VersionOrder`
comparison operators form a strict total order: exactly one of `a < b`,
`a == b`, `a > b` holds (`a > b` is `b < a` in the source), and `a < b`
together with `b < c` implies `a < c`. -/
theorem claim_C1_total_order (sa sb sc : String) (va vb vc : VersionOrder)
    (ha : parseVersionOrder sa.data = .ok va)
    (hb : parseVersionOrder sb.data = .ok vb)
    (hc : parseVersionOrder sc.data = .ok vc) :
    ((va.lt vb = true ∧ va.eq vb = false ∧ vb.lt va = false) ∨
     (va.lt vb = false ∧ va.eq vb = true ∧ vb.lt va = false) ∨
     (va.lt vb = false ∧ va.eq vb = false ∧ vb.lt va = true)) ∧
    (va.lt vb = true → vb.lt vc = true → va.lt vc = true) := by
  constructor
  · have hswap := voCmp_symm va vb
    rcases e : voCmp va vb with _ | _ | _
    · refine Or.inl ⟨(lt_iff_voCmp va vb).mpr e, ?_, ?_⟩
      · exact bool_eq_false fun hq => by
          have := (eq_iff_voCmp va vb).mp hq
          rw [e] at this
          cases this
      · exact bool_eq_false fun hq => by
          have := (lt_iff_voCmp vb va).mp hq
          rw [hswap, e] at this
          cases this
    · refine Or.inr (Or.inl ⟨?_, (eq_iff_voCmp va vb).mpr e, ?_⟩)
      · exact bool_eq_false fun hq => by
          have := (lt_iff_voCmp va vb).mp hq
          rw [e] at this
          cases this
      · exact bool_eq_false fun hq => by
          have := (lt_iff_voCmp vb va).mp hq
          rw [hswap, e] at this
          cases this
    · refine Or.inr (Or.inr ⟨?_, ?_, ?_⟩)
      · exact bool_eq_false fun hq => by
          have := (lt_iff_voCmp va vb).mp hq
          rw [e] at this
          cases this
      · exact bool_eq_false fun hq => by
          have := (eq_iff_voCmp va vb).mp hq
          rw [e] at this
          cases this
      · rw [lt_iff_voCmp, hswap, e]
        rfl
  · intro h1 h2
    rw [lt_iff_voCmp] at h1 h2 ⊢
    exact voCmp_lt_trans va vb vc h1 h2

theorem claim_C1_total_order_witness :
    ∃ va vb vc,
      parseVersionOrder "0.4.1.rc".data = .ok va ∧
      parseVersionOrder "0.4.1".data = .ok vb ∧
      parseVersionOrder "0.5a1".data = .ok vc ∧
      (((va.lt vb = true ∧ va.eq vb = false ∧ vb.lt va = false) ∨
        (va.lt vb = false ∧ va.eq vb = true ∧ vb.lt va = false) ∨
        (va.lt vb = false ∧ va.eq vb = false ∧ vb.lt va = true)) ∧
       (va.lt vb = true → vb.lt vc = true → va.lt vc = true)) :=
  ⟨_, _, _, rfl, rfl, rfl,
    claim_C1_total_order "0.4.1.rc" "0.4.1" "0.5a1" _ _ _ rfl rfl rfl⟩

/-- C2 (counterexample): the first link of the documented chain fails —
`0.4 < 0.4.0` does not hold; the code's fillvalue `0` makes the two versions
compare equal (`1.1 == 1.1.0` per the same docstring and the fillvalue
comment in the source). -/
theorem claim_C2_chain_counterexample :
    voLtStr "0.4" "0.4.0" = false ∧ voEqStr "0.4" "0.4.0" = true := by
  constructor
  · rfl
  · rfl

/-- C2 (amended): the documented ordering chain holds literally in order,
except for its first link, which is an equality (`0.4 == 0.4.0`) rather than
a strict inequality, because missing components are padded with integer 0. -/
theorem claim_C2_chain_amended :
    voEqStr "0.4" "0.4.0" = true ∧
    voLtStr "0.4.0" "0.4.1.rc" = true ∧
    voEqStr "0.4.1.rc" "0.4.1.RC" = true ∧
    voLtStr "0.4.1.RC" "0.4.1" = true ∧
    voLtStr "0.4.1" "0.5a1" = true ∧
    voLtStr "0.5a1" "0.5b3" = true ∧
    voLtStr "0.5b3" "0.5C1" = true ∧
    voEqStr "0.5C1" "0.5c1" = true ∧
    voLtStr "0.5c1" "0.5" = true ∧
    voLtStr "0.5" "1.1dev1" = true ∧
    voLtStr "1.1dev1" "1.1a1" = true ∧
    voLtStr "1.1a1" "1.1.0dev1" = true ∧
    voEqStr "1.1.0dev1" "1.1.dev1" = true ∧
    voLtStr "1.1.dev1" "1.1.a1" = true ∧
    voLtStr "1.1.a1" "1.1.0rc1" = true ∧
    voLtStr "1.1.0rc1" "1.1.0" = true ∧
    voEqStr "1.1.0" "1.1" = true ∧
    voLtStr "1.1" "1.1.0post1" = true ∧
    voEqStr "1.1.0post1" "1.1.post1" = true ∧
    voLtStr "1.1.post1" "1.1post1" = true := by
  repeat constructor

/-- C3: any version with epoch `N+1` compares strictly greater than any
version with epoch `N`, regardless of all remaining components.  A parsed
version's first component is always `[num epoch]`, so the hypotheses express
"the epoch of `a` is `N+1`" and "the epoch of `b` is `N`". -/
theorem claim_C3_epoch_dominance (sa sb : String) (va vb : VersionOrder) (n : ℕ)
    (ha : parseVersionOrder sa.data = .ok va)
    (hb : parseVersionOrder sb.data = .ok vb)
    (hea : ∃ ra, va.version = [Tok.num (n + 1)] :: ra)
    (heb : ∃ rb, vb.version = [Tok.num n] :: rb) :
    vb.lt va = true ∧ va.lt vb = false ∧ va.eq vb = false := by
  obtain ⟨ra, hva⟩ := hea
  obtain ⟨rb, hvb⟩ := heb
  have h1 : ltTok (.num n) (.num (n + 1)) = some true := by
    unfold ltTok
    rw [if_neg (by simp only [Tok.num.injEq]; omega)]
    simp [Nat.lt_succ_self]
  have hlt : vb.lt va = true := by
    unfold VersionOrder.lt
    rw [hva, hvb]
    show (match ltComps ([Tok.num n] :: rb) ([Tok.num (n + 1)] :: ra) with
      | some r => r
      | none =>
        match ltComps vb.localv va.localv with
        | some r => r
        | none => false) = true
    show (match
        (match ltRun [Tok.num n] [Tok.num (n + 1)] with
          | some r => some r
          | none => ltComps rb ra) with
      | some r => r
      | none =>
        match ltComps vb.localv va.localv with
        | some r => r
        | none => false) = true
    show (match
        (match
          (match ltTok (.num n) (.num (n + 1)) with
            | some r => some r
            | none => ltRun [] []) with
          | some r => some r
          | none => ltComps rb ra) with
      | some r => r
      | none =>
        match ltComps vb.localv va.localv with
        | some r => r
        | none => false) = true
    rw [h1]
  refine ⟨hlt, ?_, ?_⟩
  · have hvc := (lt_iff_voCmp vb va).mp hlt
    exact bool_eq_false fun hq => by
      have h2 := (lt_iff_voCmp va vb).mp hq
      have h3 := voCmp_symm va vb
      rw [h2, hvc] at h3
      exact absurd h3 (by decide)
  · have hvc := (lt_iff_voCmp vb va).mp hlt
    exact bool_eq_false fun hq => by
      have h2 := (eq_iff_voCmp va vb).mp hq
      have h3 := voCmp_symm va vb
      rw [h2, hvc] at h3
      exact absurd h3 (by decide)

theorem claim_C3_epoch_dominance_witness :
    (∃ va vb,
      parseVersionOrder "1!0.4.1".data = .ok va ∧
      parseVersionOrder "3.1.1.6".data = .ok vb ∧
      (∃ ra, va.version = [Tok.num 1] :: ra) ∧
      (∃ rb, vb.version = [Tok.num 0] :: rb) ∧
      (vb.lt va = true ∧ va.lt vb = false ∧ va.eq vb = false)) ∧
    (∃ vc vd,
      parseVersionOrder "2!0.4.1".data = .ok vc ∧
      parseVersionOrder "1!0.4.1".data = .ok vd ∧
      (∃ rc, vc.version = [Tok.num 2] :: rc) ∧
      (∃ rd, vd.version = [Tok.num 1] :: rd) ∧
      (vd.lt vc = true ∧ vc.lt vd = false ∧ vc.eq vd = false)) := by
  constructor
  · exact ⟨_, _, rfl, rfl, ⟨_, rfl⟩, ⟨_, rfl⟩,
      claim_C3_epoch_dominance "1!0.4.1" "3.1.1.6" _ _ 0 rfl rfl ⟨_, rfl⟩ ⟨_, rfl⟩⟩
  · exact ⟨_, _, rfl, rfl, ⟨_, rfl⟩, ⟨_, rfl⟩,
      claim_C3_epoch_dominance "2!0.4.1" "1!0.4.1" _ _ 1 rfl rfl ⟨_, rfl⟩ ⟨_, rfl⟩⟩

/-- C8: parsing the canonical (normalized) string of a parsed version
succeeds and yields a value equal to the original under `__eq__` (in fact the
identical parsed value). -/
theorem claim_C8_canonical_idempotent (s : String) (v : VersionOrder)
    (h : parseVersionOrder s.data = .ok v) :
    parseVersionOrder v.str = .ok v ∧ v.eq v = true :=
  ⟨(parseVersionOrder_norm_fix h).1, vo_eq_refl v⟩

theorem claim_C8_canonical_idempotent_witness :
    ∃ v, parseVersionOrder "1!2.15.1_ALPHA".data = .ok v ∧
      parseVersionOrder v.str = .ok v ∧ v.eq v = true :=
  ⟨_, rfl, claim_C8_canonical_idempotent "1!2.15.1_ALPHA" _ rfl⟩

/-! ### `_MatchSpec` symbolic execution helpers -/

theorem partitionChar_not_mem {t : Char} {s : List Char} (h : t ∉ s) :
    partitionChar t s = (s, []) := by
  induction s with
  | nil => rfl
  | cons c cs ih =>
    have hct : ¬ c = t := fun e => h (by rw [e]; exact List.mem_cons_self ..)
    have hcs : t ∉ cs := fun hm => h (List.mem_cons_of_mem c hm)
    simp only [partitionChar, if_neg hct, ih hcs]

/-- With no attribute list, not a tarball name, and exactly three whitespace
tokens, `_MatchSpec.__new__` reduces to the three-token branch. -/
theorem compileMS_three {s n vtok btok : List Char}
    (hp : '(' ∉ s)
    (ht : ¬ condaTarballExtension.isSuffixOf (pyStrip s))
    (hw : splitWs (pyStrip s) = [n, vtok, btok]) :
    compileMS s = (do
      let vspec ← compileVS vtok
      if vspec.isExact ∧ '*' ∉ btok then
        .ok { name := n, spec := pyStrip s, matcher := .exactM vtok btok,
              strictness := 3, optional := false, target := none }
      else
        .ok { name := n, spec := pyStrip s,
              matcher := .fullM vspec (buildRx btok), strictness := 2,
              optional := false, target := none }) := by
  unfold compileMS compileMSNorm
  rw [partitionChar_not_mem hp]
  simp only [ne_eq, not_true_eq_false, if_neg, reduceIte, Bind.bind, Except.bind]
  rw [if_neg ht, hw]
  rfl

/-- C10: for a three-token spec, the strictness-3 fast path is taken exactly
when the version token compiles to an `Exact` `_VersionSpec` and the build
token contains no `'*'`; on that path the stored matcher compares the raw
version and build strings for equality (not `_VersionOrder` equality). -/
theorem claim_C10_fast_path (s n vtok btok : List Char) (m : MatchSpec) (vs : VS)
    (hp : '(' ∉ s)
    (ht : ¬ condaTarballExtension.isSuffixOf (pyStrip s))
    (hw : splitWs (pyStrip s) = [n, vtok, btok])
    (hv : compileVS vtok = .ok vs)
    (hm : compileMS s = .ok m) :
    ((∃ xv xb, m.matcher = .exactM xv xb) ↔ (vs.isExact = true ∧ '*' ∉ btok)) ∧
    (vs.isExact = true → '*' ∉ btok →
      m.matcher = .exactM vtok btok ∧ m.strictness = 3 ∧
        ∀ ver bld, msMatchFast m ver bld = .ok (bld == btok && ver == vtok)) := by
  rw [compileMS_three hp ht hw] at hm
  rw [hv] at hm
  simp only [Bind.bind, Except.bind] at hm
  by_cases hc : vs.isExact = true ∧ '*' ∉ btok
  · rw [if_pos hc] at hm
    cases hm
    refine ⟨⟨fun _ => hc, fun _ => ⟨_, _, rfl⟩⟩, fun _ _ => ⟨rfl, rfl, fun ver bld => rfl⟩⟩
  · rw [if_neg hc] at hm
    cases hm
    constructor
    · constructor
      · rintro ⟨xv, xb, hx⟩
        cases hx
      · intro h
        exact absurd h hc
    · intro h1 h2
      exact absurd ⟨h1, h2⟩ hc

theorem claim_C10_fast_path_witness :
    ∃ m vs,
      compileVS "1.7".data = .ok vs ∧
      compileMS "numpy 1.7 py27_0".data = .ok m ∧
      (((∃ xv xb, m.matcher = .exactM xv xb) ↔
          (vs.isExact = true ∧ '*' ∉ "py27_0".data)) ∧
       (vs.isExact = true → '*' ∉ "py27_0".data →
        m.matcher = .exactM "1.7".data "py27_0".data ∧ m.strictness = 3 ∧
          ∀ ver bld, msMatchFast m ver bld =
            .ok (bld == "py27_0".data && ver == "1.7".data))) ∧
      msEval "numpy 1.7 py27_0" "numpy" "1.7.0" "py27_0" = .ok false ∧
      voEqStr "1.7.0" "1.7" = true :=
  ⟨_, _, rfl, rfl,
    claim_C10_fast_path "numpy 1.7 py27_0".data "numpy".data "1.7".data
      "py27_0".data _ _ (by decide) (by decide) rfl rfl rfl,
    rfl, by decide⟩

/-- C6 (counterexample): a spec with four whitespace tokens fails the bare
`assert 1 <= nparts <= 3` — an `AssertionError`, not the `ValueError`
(`MalformedSpec`) raised by the other spec-parsing violations. -/
theorem claim_C6_counterexample :
    compileMS "a b c d".data = .error .assertionError ∧
    Err.assertionError ≠ Err.malformedSpec :=
  ⟨rfl, by decide⟩

/-- C6 (amended): for every spec string without an attribute list whose
remaining text does not end in the package-archive extension, compiling it
raises an error whenever splitting on whitespace yields fewer than 1 or more
than 3 tokens — but the error is an assertion failure, not the
`MalformedSpec` (`ValueError`) raised by the other parsing violations. -/
theorem claim_C6_token_count_amended (s : List Char)
    (hp : '(' ∉ s)
    (ht : ¬ condaTarballExtension.isSuffixOf (pyStrip s))
    (hn : (splitWs (pyStrip s)).length = 0 ∨ 3 < (splitWs (pyStrip s)).length) :
    compileMS s = .error .assertionError := by
  unfold compileMS compileMSNorm
  rw [partitionChar_not_mem hp]
  simp only [ne_eq, not_true_eq_false, if_neg, reduceIte, Bind.bind, Except.bind]
  rw [if_neg ht]
  rcases e : splitWs (pyStrip s) with _ | ⟨a, _ | ⟨b, _ | ⟨c, _ | ⟨d, rest⟩⟩⟩⟩ <;>
    rw [e] at hn
  all_goals first
    | rfl
    | simp at hn

theorem claim_C6_token_count_amended_witness :
    compileMS "a b c d".data = .error .assertionError ∧
    '(' ∉ "a b c d".data ∧
    ¬ condaTarballExtension.isSuffixOf (pyStrip "a b c d".data) ∧
    (splitWs (pyStrip "a b c d".data)).length = 4 :=
  ⟨claim_C6_token_count_amended "a b c d".data (by decide) (by decide)
      (by decide), by decide, by decide, by decide⟩

/-- C9 (counterexample): two compiled specs with the same spec text but
different attributes (`optional` set on one) hash identically — the hash is
computed from the attribute-free `spec` field, not from the canonical string
(which does differ). -/
theorem claim_C9_counterexample :
    (compileMS "numpy 1.7 (optional)".data).map msHashInput =
      (compileMS "numpy 1.7".data).map msHashInput ∧
    (compileMS "numpy 1.7 (optional)".data).map msStr ≠
      (compileMS "numpy 1.7".data).map msStr ∧
    (compileMS "numpy 1.7 (optional)".data).map MatchSpec.optional = .ok true := by
  refine ⟨rfl, ?_, rfl⟩
  decide

/-- C9 (amended): the hash of a compiled `_MatchSpec` is computed from the
attribute-free spec text, so two compiled specs with the same spec text hash
identically even when their optional/target attributes (and hence their
canonical string forms) differ. -/
theorem claim_C9_hash_amended (s1 s2 : List Char) (m1 m2 : MatchSpec)
    (h1 : compileMS s1 = .ok m1) (h2 : compileMS s2 = .ok m2)
    (hspec : m1.spec = m2.spec) (hstr : msStr m1 ≠ msStr m2) :
    msHashInput m1 = msHashInput m2 := by
  unfold msHashInput
  exact hspec

theorem claim_C9_hash_amended_witness :
    ∃ m1 m2,
      compileMS "numpy 1.7 (optional)".data = .ok m1 ∧
      compileMS "numpy 1.7".data = .ok m2 ∧
      m1.spec = m2.spec ∧ msStr m1 ≠ msStr m2 ∧
      msHashInput m1 = msHashInput m2 :=
  ⟨_, _, rfl, rfl, rfl, by decide,
    claim_C9_hash_amended "numpy 1.7 (optional)".data "numpy 1.7".data _ _
      rfl rfl rfl (by decide)⟩

/-! ### The build-token regex fragment (claim C5) -/

theorem globTok_fuel2 (n : ℕ) : ∀ f g b s, b.length + s.length < n →
    b.length + s.length < f → b.length + s.length < g →
    globTok f b s = globTok g b s := by
  induction n with
  | zero => intro f g b s hn _ _; omega
  | succ n ih =>
    intro f g b s hn hf hg
    cases f with
    | zero => omega
    | succ f2 =>
      cases g with
      | zero => omega
      | succ g2 =>
        cases b with
        | nil => rfl
        | cons p ps =>
          simp only [List.length_cons] at hn hf hg
          simp only [globTok]
          by_cases hstar : p = '*'
          · rw [if_pos hstar, if_pos hstar]
            rw [ih f2 g2 ps s (by omega) (by omega) (by omega)]
            cases s with
            | nil => rfl
            | cons x s2 =>
              simp only [List.length_cons] at hn hf hg
              show (globTok g2 ps (x :: s2) || globTok f2 (p :: ps) s2) =
                (globTok g2 ps (x :: s2) || globTok g2 (p :: ps) s2)
              rw [ih f2 g2 (p :: ps) s2 (by simp only [List.length_cons]; omega)
                (by simp only [List.length_cons]; omega)
                (by simp only [List.length_cons]; omega)]
          · rw [if_neg hstar, if_neg hstar]
            by_cases hdot : p = '.'
            · rw [if_pos hdot, if_pos hdot]
              cases s with
              | nil => rfl
              | cons x s2 =>
                simp only [List.length_cons] at hn hf hg
                show globTok f2 ps s2 = globTok g2 ps s2
                exact ih f2 g2 ps s2 (by omega) (by omega) (by omega)
            · rw [if_neg hdot, if_neg hdot]
              cases s with
              | nil => rfl
              | cons x s2 =>
                simp only [List.length_cons] at hn hf hg
                show (p == x && globTok f2 ps s2) = (p == x && globTok g2 ps s2)
                rw [ih f2 g2 ps s2 (by omega) (by omega) (by omega)]

theorem globTok_fuel (f : ℕ) (b s : List Char) (hf : b.length + s.length < f) :
    globTok f b s = globMatch b s :=
  globTok_fuel2 (b.length + s.length + 1) f (b.length + s.length + 1) b s
    (by omega) hf (by omega)

theorem replStr_head_ne_star (bs : List Char) :
    (replStr '*' ".*".data bs).head? ≠ some '*' := by
  cases bs with
  | nil => simp [replStr]
  | cons c cs =>
    by_cases hc : c = '*'
    · subst hc
      simp [replStr]
    · simp only [replStr, if_neg hc, List.singleton_append, List.head?_cons, ne_eq,
        Option.some.injEq]
      exact hc

theorem replStr_length_ge (t : Char) (r : List Char) (hr : 1 ≤ r.length) :
    ∀ bs : List Char, bs.length ≤ (replStr t r bs).length := by
  intro bs
  induction bs with
  | nil => simp [replStr]
  | cons c cs ih =>
    by_cases hc : c = t
    · rw [show replStr t r (c :: cs) = r ++ replStr t r cs by simp [replStr, hc]]
      rw [List.length_append, List.length_cons]
      omega
    · rw [show replStr t r (c :: cs) = c :: replStr t r cs by simp [replStr, hc]]
      rw [List.length_cons, List.length_cons]
      omega

theorem interpRe_globTok : ∀ f b s, (∀ c ∈ b, c ≠ '\\') →
    interpRe f (replStr '*' ".*".data b) s = globTok f b s := by
  intro f
  induction f with
  | zero => intro b s _; rfl
  | succ f ih =>
    intro b s hb
    cases b with
    | nil => rfl
    | cons p bs =>
      have hbs : ∀ c ∈ bs, c ≠ '\\' := fun c hc => hb c (by simp [hc])
      by_cases hstar : p = '*'
      · subst hstar
        show (interpRe f (replStr '*' ".*".data bs) s ||
            match s with
            | [] => false
            | _ :: s2 => interpRe f ('.' :: '*' :: replStr '*' ".*".data bs) s2) =
          (globTok f bs s ||
            match s with
            | [] => false
            | _ :: s2 => globTok f ('*' :: bs) s2)
        rw [ih bs s hbs]
        cases s with
        | nil => rfl
        | cons x s2 =>
          show (globTok f bs (x :: s2) ||
              interpRe f ('.' :: '*' :: replStr '*' ".*".data bs) s2) =
            (globTok f bs (x :: s2) || globTok f ('*' :: bs) s2)
          rw [show ('.' :: '*' :: replStr '*' ".*".data bs) =
              replStr '*' ".*".data ('*' :: bs) from rfl,
            ih ('*' :: bs) s2 hb]
      · have hrepl : replStr '*' ".*".data (p :: bs) =
            p :: replStr '*' ".*".data bs := by
          simp [replStr, hstar]
        rw [hrepl]
        simp only [interpRe, globTok]
        rw [if_neg (fun h => replStr_head_ne_star bs h.2)]
        rw [if_neg (hb p (by simp))]
        rw [if_neg hstar]
        by_cases hdot : p = '.'
        · rw [if_pos hdot, if_pos hdot]
          cases s with
          | nil => rfl
          | cons x s2 =>
            show interpRe f (replStr '*' ".*".data bs) s2 = globTok f bs s2
            exact ih bs s2 hbs
        · rw [if_neg hdot, if_neg hdot]
          cases s with
          | nil => rfl
          | cons x s2 =>
            show (p == x && interpRe f (replStr '*' ".*".data bs) s2) =
              (p == x && globTok f bs s2)
            rw [ih bs s2 hbs]

theorem stripWrap_wrap (mid : List Char) :
    stripWrap ("^(?:".data ++ mid ++ ")$".data) = some mid := by
  show (match (mid ++ [')', '$']).reverse with
    | '$' :: ')' :: m => some m.reverse
    | _ => none) = some mid
  rw [List.reverse_append]
  show some mid.reverse.reverse = some mid
  rw [List.reverse_reverse]

theorem safeBuildChar_ne_backslash {c : Char} (h : safeBuildChar c = true) :
    c ≠ '\\' := by
  intro e
  subst e
  exact absurd h (by decide)

theorem reMatch_buildRx (b s : List Char) (hsafe : ∀ c ∈ b, c ≠ '\\') :
    reMatch (buildRx b) s = globMatch b s := by
  unfold reMatch buildRx
  rw [stripWrap_wrap]
  show interpRe ((replStr '*' ".*".data b).length + s.length + 1)
    (replStr '*' ".*".data b) s = globMatch b s
  rw [interpRe_globTok _ _ _ hsafe]
  exact globTok_fuel _ _ _
    (by have := replStr_length_ge '*' ".*".data (by decide) b; omega)

/-- C5 (counterexample): on the general (non-fast) path the build token
`py2.7` is compiled to `^(?:py2.7)$` with the `.` unescaped, so the candidate
build string `py2x7` matches even though the claim says a literal `.` matches
only `.`. -/
theorem claim_C5_counterexample :
    msEval "numpy >=1.7 py2.7" "numpy" "1.7.5" "py2x7" = .ok true ∧
    msEval "numpy >=1.7 py2.7" "numpy" "1.7.5" "py2.7" = .ok true :=
  ⟨rfl, rfl⟩

/-- C5 (amended): on the general path the build token is compiled into the
anchored regex `^(?:token)$` with every `*` replaced by `.*` but with `.` NOT
escaped; consequently, for metacharacter-free build tokens, a literal `.` in
the build token matches any single character of the candidate build string
(glob semantics `globMatch`). -/
theorem claim_C5_build_regex_amended (s n vtok btok : List Char)
    (m : MatchSpec) (vs : VS) (bpat : List Char)
    (hp : '(' ∉ s)
    (ht : ¬ condaTarballExtension.isSuffixOf (pyStrip s))
    (hw : splitWs (pyStrip s) = [n, vtok, btok])
    (hm : compileMS s = .ok m)
    (hfull : m.matcher = .fullM vs bpat) :
    bpat = buildRx btok ∧
    (btok.all safeBuildChar = true →
      ∀ bld, reMatch bpat bld = globMatch btok bld) := by
  rw [compileMS_three hp ht hw] at hm
  cases e : compileVS vtok with
  | error err =>
    rw [e] at hm
    simp [Bind.bind, Except.bind] at hm
  | ok vspec =>
    rw [e] at hm
    simp only [Bind.bind, Except.bind] at hm
    by_cases hc : vspec.isExact = true ∧ '*' ∉ btok
    · rw [if_pos hc] at hm
      cases hm
      cases hfull
    · rw [if_neg hc] at hm
      cases hm
      injection hfull with h1 h2
      subst h2
      refine ⟨rfl, fun hsafe bld => ?_⟩
      rw [List.all_eq_true] at hsafe
      exact reMatch_buildRx btok bld
        (fun c hc2 => safeBuildChar_ne_backslash (hsafe c hc2))

theorem claim_C5_build_regex_amended_witness :
    ∃ m vs bpat,
      compileMS "numpy >=1.7 py2.7".data = .ok m ∧
      m.matcher = .fullM vs bpat ∧
      (bpat = buildRx "py2.7".data ∧
       ("py2.7".data.all safeBuildChar = true →
        ∀ bld, reMatch bpat bld = globMatch "py2.7".data bld)) ∧
      "py2.7".data.all safeBuildChar = true ∧
      reMatch (buildRx "py2.7".data) "py2x7".data = true :=
  ⟨_, _, _, rfl, rfl,
    claim_C5_build_regex_amended "numpy >=1.7 py2.7".data "numpy".data
      ">=1.7".data "py2.7".data _ _ _ (by decide) (by decide) rfl rfl rfl,
    by decide, rfl⟩

/-! ### Serialization round trip (claim C7) -/

theorem splitChar_ne_nil (sep : Char) : ∀ s, splitChar sep s ≠ [] := by
  intro s
  cases s with
  | nil => simp [splitChar]
  | cons c cs =>
    by_cases hc : c = sep
    · simp [splitChar, hc]
    · simp only [splitChar, if_neg hc]
      cases e : splitChar sep cs with
      | nil => simp
      | cons p ps => simp

theorem joinSep_cons_cons (sep c : Char) (p : List Char) (ps : List (List Char)) :
    joinSep sep ((c :: p) :: ps) = c :: joinSep sep (p :: ps) := by
  cases ps with
  | nil => rfl
  | cons q qs => rfl

theorem joinSep_splitChar (sep : Char) : ∀ s, joinSep sep (splitChar sep s) = s := by
  intro s
  induction s with
  | nil => rfl
  | cons c cs ih =>
    by_cases hc : c = sep
    · rcases e : splitChar sep cs with _ | ⟨p, ps⟩
      · exact absurd e (splitChar_ne_nil sep cs)
      · rw [show splitChar sep (c :: cs) = [] :: p :: ps by
          simp [splitChar, hc, e]]
        show sep :: joinSep sep (p :: ps) = c :: cs
        rw [← e, ih, hc]
    · rcases e : splitChar sep cs with _ | ⟨p, ps⟩
      · exact absurd e (splitChar_ne_nil sep cs)
      · rw [show splitChar sep (c :: cs) = (c :: p) :: ps by
          simp [splitChar, hc, e]]
        rw [joinSep_cons_cons, ← e, ih]

theorem listMapM_ok {α β : Type} {f : α → Except Err β} :
    ∀ {l : List α} {res : List β}, listMapM f l = .ok res →
      List.Forall₂ (fun a b => f a = .ok b) l res := by
  intro l
  induction l with
  | nil =>
    intro res h
    cases h
    exact List.Forall₂.nil
  | cons a as ih =>
    intro res h
    unfold listMapM at h
    cases e1 : f a with
    | error err =>
      rw [e1] at h
      simp [Bind.bind, Except.bind] at h
    | ok b =>
      rw [e1] at h
      cases e2 : listMapM f as with
      | error err =>
        rw [e2] at h
        simp [Bind.bind, Except.bind] at h
      | ok bs =>
        rw [e2] at h
        simp only [Bind.bind, Except.bind] at h
        cases h
        exact List.Forall₂.cons e1 (ih e2)

theorem vsStrList_join (sep : Char) :
    ∀ {ps : List (List Char)} {cs : List VS},
      List.Forall₂ (fun p c => vsStr false c = p) ps cs →
      vsStrList false sep cs = joinSep sep ps := by
  intro ps cs h
  induction h with
  | nil => rfl
  | @cons p c ps2 cs2 h1 h2 ih =>
    cases h2 with
    | nil => exact h1
    | cons h3 h4 =>
      show vsStr false c ++ sep :: vsStrList false sep _ =
        joinSep sep (p :: _ :: _)
      rw [h1, ih]
      rfl

theorem segScan_bounds : ∀ {cs : List Char} {k : ℕ}, segScan cs = some k →
    1 ≤ k ∧ k ≤ cs.length := by
  intro cs
  induction cs with
  | nil => intro k h; cases h
  | cons c cs2 ih =>
    intro k h
    unfold segScan at h
    by_cases h1 : c = '$'
    · rw [if_pos h1] at h
      cases h
      simp
    · rw [if_neg h1] at h
      by_cases h2 : pyIsSpace c = true
      · rw [if_pos h2] at h
        cases h
      · rw [if_neg h2] at h
        cases e : segScan cs2 with
        | none =>
          rw [e] at h
          cases h
        | some k2 =>
          rw [e] at h
          cases h
          have := ih e
          simp only [List.length_cons]
          omega

theorem regexSegEnd_bounds : ∀ {s : List Char} {j : ℕ},
    regexSegEnd s = some j → 3 ≤ j ∧ j ≤ s.length := by
  intro s j h
  rcases s with _ | ⟨c0, _ | ⟨c1, rest⟩⟩
  · cases h
  · cases h
  · have h2 : (if c0 = '^' ∧ pyIsSpace c1 = false then
        Option.map (· + 2) (segScan rest) else none) = some j := h
    by_cases hc : c0 = '^' ∧ pyIsSpace c1 = false
    · rw [if_pos hc] at h2
      cases e : segScan rest with
      | none =>
        rw [e] at h2
        cases h2
      | some k =>
        rw [e] at h2
        cases h2
        have := segScan_bounds e
        simp only [List.length_cons]
        omega
    · rw [if_neg hc] at h2
      cases h2

theorem take_getD_drop {s : List Char} {j : ℕ} (h : j < s.length) :
    s.take j ++ s.getD j ' ' :: s.drop (j + 1) = s := by
  rw [List.getD_eq_getElem s ' ' h, ← List.drop_eq_getElem_cons h]
  exact List.take_append_drop j s

/-- Serialization is the identity on every successfully compiled constraint
string: each leaf stores its source text verbatim, and each combinator joins
its children's serializations with the separator it was split on. -/
theorem compileVSF_str : ∀ fuel s vs, compileVSF fuel s = .ok vs →
    vsStr false vs = s := by
  intro fuel
  induction fuel with
  | zero => intro s vs h; cases h
  | succ f ih =>
    intro s vs h0
    have h1 : compileVSStep (compileVSF f) s = .ok vs := h0
    clear h0
    unfold compileVSStep at h1
    cases eseg : regexSegEnd s with
    | some j =>
      rw [eseg] at h1
      have h : compileVSRegex (compileVSF f) s j = .ok vs := h1
      clear h1
      unfold compileVSRegex at h
      by_cases hj : j = s.length
      · rw [if_pos hj] at h
        cases h
        rfl
      · rw [if_neg hj] at h
        cases ecvt : regexSplitConverter (s.getD j ' ') with
        | none =>
          rw [ecvt] at h
          cases h
        | some tag =>
          rw [ecvt] at h
          cases e1 : compileVSF f (s.take j) with
          | error err =>
            rw [e1] at h
            simp [Bind.bind, Except.bind] at h
          | ok c1 =>
            rw [e1] at h
            cases e2 : compileVSF f (s.drop (j + 1)) with
            | error err =>
              rw [e2] at h
              simp [Bind.bind, Except.bind] at h
            | ok c2 =>
              rw [e2] at h
              simp only [Bind.bind, Except.bind] at h
              cases h
              have hjlt : j < s.length :=
                lt_of_le_of_ne (regexSegEnd_bounds eseg).2 hj
              have hs1 := ih _ _ e1
              have hs2 := ih _ _ e2
              unfold regexSplitConverter at ecvt
              by_cases hbar : s.getD j ' ' = '|'
              · rw [if_pos hbar] at ecvt
                cases ecvt
                show vsStr false c1 ++ '|' :: vsStr false c2 = s
                rw [hs1, hs2, ← hbar]
                exact take_getD_drop hjlt
              · rw [if_neg hbar] at ecvt
                by_cases hcom : s.getD j ' ' = ','
                · rw [if_pos hcom] at ecvt
                  cases ecvt
                  show vsStr false c1 ++ ',' :: vsStr false c2 = s
                  rw [hs1, hs2, ← hcom]
                  exact take_getD_drop hjlt
                · rw [if_neg hcom] at ecvt
                  cases ecvt
    | none =>
      rw [eseg] at h1
      have h : compileVSMain (compileVSF f) s = .ok vs := h1
      clear h1
      unfold compileVSMain at h
      by_cases hbar : '|' ∈ s
      · rw [if_pos hbar] at h
        cases em : listMapM (compileVSF f) (splitChar '|' s) with
        | error err =>
          rw [em] at h
          simp [Bind.bind, Except.bind] at h
        | ok cs =>
          rw [em] at h
          simp only [Bind.bind, Except.bind] at h
          cases h
          show vsStrList false '|' cs = s
          rw [vsStrList_join '|' ((listMapM_ok em).imp (fun a b h2 => ih a b h2)),
            joinSep_splitChar]
      · rw [if_neg hbar] at h
        by_cases hcom : ',' ∈ s
        · rw [if_pos hcom] at h
          cases em : listMapM (compileVSF f) (splitChar ',' s) with
          | error err =>
            rw [em] at h
            simp [Bind.bind, Except.bind] at h
          | ok cs =>
            rw [em] at h
            simp only [Bind.bind, Except.bind] at h
            cases h
            show vsStrList false ',' cs = s
            rw [vsStrList_join ',' ((listMapM_ok em).imp (fun a b h2 => ih a b h2)),
              joinSep_splitChar]
        · rw [if_neg hcom] at h
          split at h
          · cases erel : relParse s with
            | none =>
              rw [erel] at h
              cases h
            | some ob =>
              rw [erel] at h
              obtain ⟨o, b⟩ := ob
              have h2 : (do
                  let cmp ← parseVersionOrder b
                  Except.ok (VS.rel s o cmp)) = Except.ok vs := h
              clear h
              cases ep : parseVersionOrder b with
              | error err =>
                rw [ep] at h2
                simp [Bind.bind, Except.bind] at h2
              | ok cmp =>
                rw [ep] at h2
                simp only [Bind.bind, Except.bind] at h2
                cases h2
                rfl
          · by_cases htriv : s = ['*']
            · rw [if_pos htriv] at h
              cases h
              rfl
            · rw [if_neg htriv] at h
              by_cases hwild : '*' ∈ rstripChar '*' s
              · rw [if_pos hwild] at h
                cases h
                rfl
              · rw [if_neg hwild] at h
                by_cases hpfx : s.getLast? = some '*'
                · rw [if_pos hpfx] at h
                  cases ep : parseVersionOrder (rstripChar '.' (rstripChar '*' s)) with
                  | error err =>
                    rw [ep] at h
                    simp [Bind.bind, Except.bind] at h
                  | ok cmp =>
                    rw [ep] at h
                    simp only [Bind.bind, Except.bind] at h
                    cases h
                    rfl
                · rw [if_neg hpfx] at h
                  cases h
                  rfl

/-- C7 (counterexample): a combinator built with the `&` and `|` operators
breaks the round trip.  `(a | b) & c` serializes to `"(1.7|1.8)|1.9"` (the
parenthesized Or re-reads as literal characters), matches `"1.7"` before
serialization (the `&`-tagged tuple even dispatches to ANY-semantics), and
its re-compiled form rejects `"1.7"`. -/
theorem claim_C7_roundtrip_counterexample :
    ∃ a b c : VS,
      compileVS "1.7".data = .ok a ∧
      compileVS "1.8".data = .ok b ∧
      compileVS "1.9".data = .ok c ∧
      vsStr false (vsAnd (vsOr a b) c) = "(1.7|1.8)|1.9".data ∧
      vsMatch (vsAnd (vsOr a b) c) "1.7".data = .ok true ∧
      (compileVS (vsStr false (vsAnd (vsOr a b) c))).map
          (fun w => vsMatch w "1.7".data) = .ok (.ok false) :=
  ⟨_, _, _, rfl, rfl, rfl, rfl, rfl, rfl⟩

/-- C7 (amended): for every `_VersionSpec` compiled from a constraint string,
serialization returns the source string verbatim, so re-compiling the
serialized form yields a spec whose match predicate agrees with the original
on every version string.  Combinators built programmatically with `&`/`|`
are excluded: their builtin-function tags serialize through a different code
path and can change meaning (see the counterexample). -/
theorem claim_C7_roundtrip_amended (s : String) (vs : VS)
    (h : compileVS s.data = .ok vs) :
    vsStr false vs = s.data ∧
    ∃ vs2, compileVS (vsStr false vs) = .ok vs2 ∧
      ∀ w, vsMatch vs2 w = vsMatch vs w := by
  have hs : vsStr false vs = s.data := compileVSF_str _ _ _ h
  refine ⟨hs, vs, ?_, fun w => rfl⟩
  rw [hs]
  exact h

theorem claim_C7_roundtrip_amended_witness :
    ∃ vs, compileVS ">=1.7,<2".data = .ok vs ∧
      (vsStr false vs = ">=1.7,<2".data ∧
       ∃ vs2, compileVS (vsStr false vs) = .ok vs2 ∧
         ∀ w, vsMatch vs2 w = vsMatch vs w) :=
  ⟨_, rfl, claim_C7_roundtrip_amended ">=1.7,<2" _ rfl⟩

/-- C4: the documented `_MatchSpec` scenarios.  The last conjunct is the
"matches only the exact triple" property: the strictness-3 spec
`"numpy 1.7 py27_0"` matches a candidate iff it is exactly
`("numpy", "1.7", "py27_0")`. -/
theorem claim_C4_matchspec_scenarios :
    msEval "numpy" "numpy" "1.0" "py27_0" = .ok true ∧
    msEval "numpy" "numpy" "9.9" "abi_1" = .ok true ∧
    msEval "numpy 1.7*" "numpy" "1.7.1" "x" = .ok true ∧
    msEval "numpy 1.7*" "numpy" "1.8.0" "x" = .ok false ∧
    msEval "numpy >=1.7,<2" "numpy" "1.9" "b" = .ok true ∧
    msEval "numpy >=1.7,<2" "numpy" "2.0" "b" = .ok false ∧
    msEval "numpy >=1.7,<2" "numpy" "1.6" "b" = .ok false ∧
    (∀ n v b : List Char,
      (compileMS "numpy 1.7 py27_0".data).bind (fun m => msMatch m n v b) =
          .ok true ↔
        n = "numpy".data ∧ v = "1.7".data ∧ b = "py27_0".data) := by
  refine ⟨rfl, rfl, rfl, rfl, rfl, rfl, rfl, ?_⟩
  intro n v b
  have e : compileMS "numpy 1.7 py27_0".data =
      .ok { name := "numpy".data, spec := "numpy 1.7 py27_0".data,
            matcher := .exactM "1.7".data "py27_0".data, strictness := 3,
            optional := false, target := none } := rfl
  rw [e]
  show msMatch _ n v b = .ok true ↔ _
  unfold msMatch msMatchFast
  by_cases hn : n = "numpy".data
  · rw [if_neg (by simp [hn])]
    simp only [Except.ok.injEq, Bool.and_eq_true, beq_iff_eq]
    constructor
    · rintro ⟨hb, hv⟩
      exact ⟨hn, hv, hb⟩
    · rintro ⟨_, hv, hb⟩
      exact ⟨hb, hv⟩
  · rw [if_pos (by simp [hn])]
    simp only [Except.ok.injEq]
    constructor
    · intro hfalse
      cases hfalse
    · rintro ⟨hn2, _, _⟩
      exact absurd hn2 hn

end Conda
